import Mathlib

/-!
Verification of the cluster-rebalancing planner (partition-count balancer).

The data model and operations below are a shallow embedding of
src/kafka_utils/kafka_cluster_manager/cluster_info/partition_count_balancer.py
and src/yelp_kafka_tool/kafka_cluster_manager/cluster_info/rg.py.
Python dictionaries and sets are represented as lists; the list order stands
for the container's iteration order.  Parts of the repository that are not in
src (the util module with compute_optimum / separate_groups, broker.py,
partition.py, cluster_balancer.py and the kafka_utils rg.py) are modelled from
the specification and are marked as such in their doc comments.
-/

namespace KafkaSpec

/-- A partition is identified by (topic name, index). -/
abbrev PName := String × Nat

/-- Partition: topic, index and the ordered replica list (head = preferred leader). -/
structure Partition where
  topic : String
  idx : Nat
  replicas : List Nat
deriving DecidableEq, Repr

def Partition.name (p : Partition) : PName := (p.topic, p.idx)

/-- Broker: id, replication-group tag and the decommissioned / inactive flags. -/
structure Broker where
  id : Nat
  rg : String
  decommissioned : Bool
  inactive : Bool
deriving DecidableEq, Repr

/-- Replication group: id and the ids of its member brokers
(the list order models the iteration order of the Python broker set). -/
structure RG where
  id : String
  brokerIds : List Nat
deriving DecidableEq, Repr

/-- Cluster topology: brokers, replication groups and partitions.
List order models the iteration order of the corresponding Python containers. -/
structure Topology where
  brokers : List Broker
  rgs : List RG
  partitions : List Partition
deriving DecidableEq, Repr

/-! ### Python iteration primitives -/

/-- Python max(iterable, key=f): the first element with maximal key;
none models the ValueError raised on an empty sequence. -/
def pyMaxBy (f : α → Nat) : List α → Option α
  | [] => none
  | x :: xs => some (xs.foldl (fun best y => if f best < f y then y else best) x)

/-- Python min(iterable, key=f): the first element with minimal key;
none models the ValueError raised on an empty sequence. -/
def pyMinBy (f : α → Nat) : List α → Option α
  | [] => none
  | x :: xs => some (xs.foldl (fun best y => if f y < f best then y else best) x)

/-- Python min with a two-component lexicographic key. -/
def pyMinBy2 (f g : α → Nat) : List α → Option α
  | [] => none
  | x :: xs => some (xs.foldl
      (fun best y =>
        if f y < f best || (f y == f best && g y < g best) then y else best) x)

/-- Stable insertion of x after every element y with le y x. -/
def insertLe (le : α → α → Bool) (x : α) : List α → List α
  | [] => [x]
  | y :: ys => if le y x then y :: insertLe le x ys else x :: y :: ys

/-- Stable sort (models Python sorted with a key function). -/
def stableSort (le : α → α → Bool) (l : List α) : List α :=
  l.foldr (fun x acc => insertLe le x acc) []

/-- Python truthiness of an optional integer option value:
None and 0 are falsy, every other integer is truthy. -/
def truthyOpt : Option Nat → Bool
  | none => false
  | some n => n != 0

/-- Lexicographic strict order on strings as character lists. -/
def strLtChars : List Char → List Char → Bool
  | [], [] => false
  | [], _ :: _ => true
  | _ :: _, [] => false
  | c :: cs, d :: ds =>
    if c.toNat < d.toNat then true
    else if d.toNat < c.toNat then false
    else strLtChars cs ds

/-- Lexicographic order on strings. -/
def strLeB (a b : String) : Bool := strLtChars a.data b.data || a == b

/-- The tie-break order on partition names: topic, then index. -/
def pnameLe (a b : PName) : Bool :=
  strLtChars a.1.data b.1.data || (a.1 == b.1 && a.2 ≤ b.2)

/-! ### Topology accessors -/

/-- Lookup of a partition by its (topic, index) name. -/
def lookupPartition (t : Topology) (n : PName) : Option Partition :=
  t.partitions.find? (fun p => p.name == n)

/-- The replica list of the named partition (empty when the partition is unknown). -/
def replicasOf (t : Topology) (n : PName) : List Nat :=
  (lookupPartition t n).elim [] (fun p => p.replicas)

/-- Replication factor: length of the replica list. -/
def rfOf (t : Topology) (n : PName) : Nat := (replicasOf t n).length

/-- Whether broker b holds a replica of partition n
(broker in partition.replicas, equivalently partition in broker.partitions). -/
def holdsPart (t : Topology) (b : Nat) (n : PName) : Bool :=
  decide (b ∈ replicasOf t n)

/-- The set of partitions replicated on broker b (broker.partitions). -/
def brokerParts (t : Topology) (b : Nat) : List Partition :=
  t.partitions.filter (fun p => decide (b ∈ p.replicas))

/-- len(broker.partitions). -/
def brokerLoad (t : Topology) (b : Nat) : Nat := (brokerParts t b).length

/-- len(rg.partitions): total number of replicas held by the group's brokers. -/
def rgSize (t : Topology) (rg : RG) : Nat :=
  (rg.brokerIds.map (brokerLoad t)).sum

/-- rg.count_replica(partition): number of the group's brokers holding the partition. -/
def countReplica (t : Topology) (rg : RG) (n : PName) : Nat :=
  rg.brokerIds.countP (fun b => holdsPart t b n)

/-- The names of the replicas residing in the group, with multiplicity
(rg.partitions as a list of partition names). -/
def rgPartNames (t : Topology) (rg : RG) : List PName :=
  rg.brokerIds.flatMap (fun b => (brokerParts t b).map Partition.name)

/-- broker.count_preferred_replica(): partitions whose preferred leader is b.
Modelled from the spec: broker.py is not under src; the preferred leader is the
first element of the replica list (spec section 3). -/
def countPreferredReplica (t : Topology) (b : Nat) : Nat :=
  t.partitions.countP (fun p => p.replicas.head? == some b)

/-- broker.count_partitions(topic): partitions of the given topic held by b.
Modelled from the spec: broker.py is not under src; siblings of a partition are
the partitions of the same topic (spec glossary). -/
def countTopicParts (t : Topology) (b : Nat) (topic : String) : Nat :=
  (brokerParts t b).countP (fun p => p.topic == topic)

/-- partition.count_siblings(dest.partitions): partitions of the same topic as n
residing on dest.  Modelled from the spec: partition.py is not under src. -/
def countSiblings (t : Topology) (n : PName) (dest : Nat) : Nat :=
  countTopicParts t dest n.1

/-- The decommissioned flag of a broker id. -/
def isDecommissioned (t : Topology) (b : Nat) : Bool :=
  ((t.brokers.find? (fun br => br.id == b)).elim false (fun br => br.decommissioned))

/-- broker.empty(): the broker holds no partition. -/
def brokerEmpty (t : Topology) (b : Nat) : Bool := (brokerParts t b).isEmpty

/-! ### Mutators (modelled from the spec where the owning file is not in src) -/

/-- Rewrites the replica list of the named partition with f; every other
partition is untouched.  The common shape of the four replica-list mutators. -/
def updReplicas (t : Topology) (n : PName) (f : List Nat → List Nat) : Topology :=
  { t with partitions := t.partitions.map (fun p =>
      if p.name == n then { p with replicas := f p.replicas } else p) }

/-- broker.move_partition(victim, dest): one replica of the named partition moves
from broker src to broker dst.  Modelled from the spec: broker.py is not under
src; the replica list keeps its order with src replaced by dst, so the
replication factor is unchanged and both membership invariants are restored
(spec sections 3 and 4.2). -/
def movePart (t : Topology) (n : PName) (src dst : Nat) : Topology :=
  updReplicas t n (fun rs => rs.map (fun b => if b == src then dst else b))

/-- partition.swap_leader(b): b becomes the first replica, the relative order of
the remaining replicas is preserved.  Modelled from the spec: partition.py is
not under src (spec section 4.3.3). -/
def swapLeaderT (t : Topology) (n : PName) (b : Nat) : Topology :=
  updReplicas t n (fun rs => b :: rs.erase b)

/-- Appends a broker to the replica list of the named partition. -/
def appendReplica (t : Topology) (n : PName) (b : Nat) : Topology :=
  updReplicas t n (fun rs => rs ++ [b])

/-- Removes the first occurrence of a broker from the replica list of the
named partition. -/
def removeReplicaBroker (t : Topology) (n : PName) (b : Nat) : Topology :=
  updReplicas t n (fun rs => rs.erase b)

/-! ### Utilities: optimum and over/under separation -/

/-- compute_optimum(bucket_count, total) = (quotient, remainder).
Modelled from the spec: the util module is not under src; quotient and
remainder of the division, undefined (an error at the call sites) when
bucket_count = 0 (spec section 4.1). -/
def computeOptimum (buckets total : Nat) : Nat × Nat :=
  (total / buckets, total % buckets)

/-- separate_groups(items, load, total) = (over, under).
Modelled from the spec: the util module is not under src.  With
(quotient, remainder) = computeOptimum items.length total, over holds the
items with load above quotient+1 plus the items at exactly quotient+1 beyond
the first remainder of them, ordered by load descending with ties broken by
the stable key order; under holds the items with load below the quotient
(spec section 4.1).  keyLe is the stable tie-break order on items. -/
def separateGroups (items : List α) (load : α → Nat) (keyLe : α → α → Bool)
    (total : Nat) : List α × List α :=
  let q := (computeOptimum items.length total).1
  let r := (computeOptimum items.length total).2
  let sorted := stableSort
    (fun a b => load b < load a || (load b == load a && keyLe a b)) items
  let over := sorted.filter (fun x => decide (q + 1 < load x)) ++
    (sorted.filter (fun x => load x == q + 1)).drop r
  let under := sorted.filter (fun x => decide (load x < q))
  (over, under)

/-- Error taxonomy of the planner, plus the untyped Python runtime errors that
the source can raise (ValueError from max()/min() on an empty sequence,
ZeroDivisionError from compute_optimum with zero buckets). -/
inductive Err where
  | invalidBrokerId
  | invalidPartition
  | invalidReplicationFactor
  | emptyReplicationGroup
  | notEligibleGroup
  | brokerDecommission
  | rebalanceError
  | valueError
  | zeroDivision
deriving DecidableEq, Repr

/-! ### ReplicationGroup operations (rg.py, under src) -/

/-- rg.add_broker(b): the broker id is added unless already present
(in which case only a warning is logged and the set is unchanged). -/
def RG.addBroker (g : RG) (b : Nat) : RG :=
  if b ∈ g.brokerIds then g else { g with brokerIds := g.brokerIds ++ [b] }

/-- rg._select_over_loaded_brokers: brokers of the group holding the victim,
sorted by partition count descending (stable). -/
def selectOverLoadedBrokers (t : Topology) (g : RG) (victim : PName) : List Nat :=
  stableSort (fun a b => brokerLoad t b ≤ brokerLoad t a)
    (g.brokerIds.filter (fun b => holdsPart t b victim))

/-- rg.select_under_loaded_brokers: brokers of the group not holding the victim,
sorted by partition count ascending (stable). -/
def selectUnderLoadedBrokers (t : Topology) (g : RG) (victim : PName) : List Nat :=
  stableSort (fun a b => brokerLoad t a ≤ brokerLoad t b)
    (g.brokerIds.filter (fun b => !holdsPart t b victim))

/-- rg.move_partition(rg_destination, victim): elect the source broker (max
same-topic partition count among holders) and the destination broker (min
same-topic partition count among non-holders) and move the replica.
Python max()/min() raise ValueError on an empty sequence. -/
def rgMovePartition (t : Topology) (gSrc gDst : RG) (victim : PName) :
    Except Err Topology :=
  let overBs := selectOverLoadedBrokers t gSrc victim
  let underBs := selectUnderLoadedBrokers t gDst victim
  match pyMaxBy (fun b => countTopicParts t b victim.1) overBs with
  | none => .error .valueError
  | some src =>
    match pyMinBy (fun b => countTopicParts t b victim.1) underBs with
    | none => .error .valueError
    | some dst => .ok (movePart t victim src dst)

/-- rg._get_eligible_broker_pair and rg.move_partition_replica: the source is
the group's holder of the victim with the most partitions, the destination the
other group's non-holder with the fewest partitions.  Python max() (evaluated
first) and min() raise ValueError on an empty sequence. -/
def movePartitionReplica (t : Topology) (overRg underRg : RG) (victim : PName) :
    Except Err Topology :=
  let underBs := underRg.brokerIds.filter (fun b => !holdsPart t b victim)
  let overBs := overRg.brokerIds.filter (fun b => holdsPart t b victim)
  match pyMaxBy (brokerLoad t) overBs with
  | none => .error .valueError
  | some src =>
    match pyMinBy (brokerLoad t) underBs with
    | none => .error .valueError
    | some dst => .ok (movePart t victim src dst)

/-! ### Intra-group broker rebalance (rg.py, under src) -/

/-- Sibling-count cache: (partition name, destination broker) to count.
Later entries shadow earlier ones; an absent entry counts as zero
(spec section 9: absence is treated as zero). -/
abbrev SibInfo := List ((PName × Nat) × Nat)

def sibLookup (info : SibInfo) (n : PName) (b : Nat) : Nat :=
  ((info.find? (fun e => e.1 == (n, b))).elim 0 (fun e => e.2))

def sibSet (info : SibInfo) (n : PName) (b : Nat) (v : Nat) : SibInfo :=
  ((n, b), v) :: info

/-- rg.partitions_sib_info: sibling counts of every partition of an over-loaded
broker on every under-loaded broker. -/
def partitionsSibInfo (t : Topology) (overBs underBs : List Nat) : SibInfo :=
  overBs.flatMap (fun sb =>
    (brokerParts t sb).flatMap (fun p =>
      underBs.map (fun db => ((p.name, db), countSiblings t p.name db))))

/-- broker.get_preferred_partition(dest, sibling_info): among the partitions
held by the source and not by the destination, the one with the fewest
topic-siblings already on the destination.  Modelled from the spec: broker.py
is not under src; eligibility and the sibling-count objective are from spec
section 4.2.1 item 6, ties broken by partition key. -/
def getPreferredPartition (t : Topology) (src dst : Nat) (info : SibInfo) :
    Option PName :=
  let eligible := stableSort pnameLe
    ((brokerParts t src).filter (fun p => !holdsPart t dst p.name)
      |>.map Partition.name)
  pyMinBy (fun n => sibLookup info n dst) eligible

/-- rg.update_sibling_info: after a move of the partition to the broker, the
cached sibling count of every partition of the same topic on that broker is
incremented, with absent entries counted as zero. -/
def updateSiblingInfo (t : Topology) (info : SibInfo) (target : Option (Nat × PName)) :
    SibInfo :=
  match target with
  | none => info
  | some (dst, n) =>
    ((t.partitions.filter (fun p => p.topic == n.1)).map Partition.name).dedup.foldl
      (fun acc sib => sibSet acc sib dst (sibLookup acc sib dst + 1)) info

/-- State of the best-candidate scan in rg._get_target_brokers:
current (source, destination, partition) and the minimal sibling count seen
(none models the initial -1). -/
structure TargetScan where
  target : Option (Nat × Nat × PName)
  minCnt : Option Nat

/-- The inner destination loop of rg._get_target_brokers for one source broker.
Returns the updated scan state; breaks on a sibling count of zero, or on the
first destination for which the pair is settled (difference at most one and the
source not decommissioned). -/
def targetScanDests (t : Topology) (src : Nat) (info : SibInfo) :
    List Nat → TargetScan → TargetScan
  | [], st => st
  | dst :: rest, st =>
    if brokerLoad t dst + 1 < brokerLoad t src || isDecommissioned t src then
      match getPreferredPartition t src dst info with
      | none => targetScanDests t src info rest st
      | some n =>
        let cnt := sibLookup info n dst
        let better := match st.minCnt with
          | none => true
          | some m => cnt < m
        if better then
          let st2 : TargetScan := ⟨some (src, dst, n), some cnt⟩
          if cnt == 0 then st2 else targetScanDests t src info rest st2
        else targetScanDests t src info rest st
    else st

/-- rg._get_target_brokers: scan over-loaded brokers (sorted by partition count
descending) against under-loaded brokers (ascending) for the (source,
destination, partition) triple with minimal sibling count; the sibling cache is
updated for the chosen destination. -/
def getTargetBrokers (t : Topology) (overBs underBs : List Nat) (info : SibInfo) :
    Option (Nat × Nat × PName) × SibInfo :=
  let overS := stableSort (fun a b => brokerLoad t b ≤ brokerLoad t a) overBs
  let underS := stableSort (fun a b => brokerLoad t a ≤ brokerLoad t b) underBs
  let st := overS.foldl (fun st src => targetScanDests t src info underS st)
    ⟨none, none⟩
  match st.target with
  | none => (none, info)
  | some (_, dst, n) => (st.target, updateSiblingInfo t info (some (dst, n)))

/-- The while loop of rg.rebalance_brokers: move best-fit partitions until the
active brokers are balanced and the decommissioned brokers are empty, or no
further move is found.  The fuel bounds the source's while loop, which
terminates by the measure described in spec section 4.2.1. -/
def rebalanceBrokersLoop (t : Topology) (active blacklist : List Nat)
    (total : Nat) : Nat → SibInfo → List Nat → List Nat → Topology
  | 0, _, _, _ => t
  | fuel + 1, info, overBs, underBs =>
    if overBs.isEmpty || underBs.isEmpty then t
    else
      match getTargetBrokers t overBs underBs info with
      | (none, _) => t
      | (some (src, dst, victim), info2) =>
        let t2 := movePart t victim src dst
        let ou := separateGroups active (brokerLoad t2) (fun a b => a ≤ b) total
        rebalanceBrokersLoop t2 active blacklist total fuel info2
          (ou.1 ++ blacklist.filter (fun b => !brokerEmpty t2 b)) ou.2

/-- rg.rebalance_brokers: equalize partition counts across the group's active
brokers, using non-empty decommissioned brokers as forced donors.  With no
active broker the utilities are called with zero buckets, which surfaces as
EmptyReplicationGroupError (spec sections 4.1 and 7; the util module is not
under src). -/
def rebalanceBrokersRG (t : Topology) (g : RG) : Except (Err × Topology) Topology :=
  let total := (g.brokerIds.map (brokerLoad t)).sum
  let blacklist := g.brokerIds.filter (fun b => isDecommissioned t b)
  let active := g.brokerIds.filter (fun b => !isDecommissioned t b)
  if active.isEmpty then .error (.emptyReplicationGroup, t)
  else
    let ou := separateGroups active (brokerLoad t) (fun a b => a ≤ b) total
    let overBs := ou.1 ++ blacklist.filter (fun b => !brokerEmpty t b)
    if overBs.isEmpty && ou.2.isEmpty then .ok t
    else
      let info := partitionsSibInfo t overBs ou.2
      .ok (rebalanceBrokersLoop t active blacklist total
        ((total + 1) * (total + 1) + 1) info overBs ou.2)

/-- rg.acquire_partition(partition, source): accept a replica onto the group's
broker not yet holding it with the fewest same-topic partitions, or fail with
NotEligibleGroupError when every broker of the group already holds the
partition.  Modelled from the spec: the kafka_utils rg.py is not under src
(spec sections 4.2 and 4.2.2). -/
def acquirePartition (t : Topology) (g : RG) (n : PName) (src : Nat) :
    Except Err Topology :=
  let cands := g.brokerIds.filter (fun b => !holdsPart t b n)
  match pyMinBy (fun b => countTopicParts t b n.1) cands with
  | none => .error .notEligibleGroup
  | some dst => .ok (movePart t n src dst)

/-! ### Broker decommission (partition_count_balancer.py, under src) -/

/-- Lookup of a replication group by id. -/
def rgOf (t : Topology) (rgId : String) : Option RG :=
  t.rgs.find? (fun g => g.id == rgId)

/-- Marks one broker as decommissioned. -/
def markDecommissioned (t : Topology) (b : Nat) : Topology :=
  { t with brokers := t.brokers.map (fun br =>
      if br.id == b then { br with decommissioned := true } else br) }

/-- The validation-and-marking loop of decommission_brokers: each id is looked
up and immediately marked; an unknown id raises InvalidBrokerIdError on the
spot, leaving the brokers named by the earlier ids already marked.  Also
collects the affected group ids in first-seen order. -/
def markLoop : List Nat → Topology → List String →
    Except (Err × Topology) (Topology × List String)
  | [], t, gs => .ok (t, gs)
  | bid :: rest, t, gs =>
    match t.brokers.find? (fun br => br.id == bid) with
    | none => .error (.invalidBrokerId, t)
    | some br =>
      markLoop rest (markDecommissioned t bid)
        (if br.rg ∈ gs then gs else gs ++ [br.rg])

/-- The inner loop of the force phase: offer the partition to each group in
turn with acquire_partition until one accepts (NotEligibleGroupError only
drives this control flow and is not surfaced). -/
def tryAcquire (t2 : Topology) (n : PName) (b : Nat) : List RG → Topology
  | [] => t2
  | g :: gs =>
    match acquirePartition t2 g n b with
    | .ok t3 => t3
    | .error _ => tryAcquire t2 n b gs

/-- The force phase for one decommissioned broker: each remaining replica is
offered to the other groups in ascending order of their replica count for the
partition, with acquire_partition, until one accepts. -/
def forceBrokerDecommission (t : Topology) (b : Nat) : Topology :=
  let ownRg := ((t.brokers.find? (fun br => br.id == b)).elim "" (fun br => br.rg))
  let avail := t.rgs.filter (fun g => g.id != ownRg)
  ((brokerParts t b).map Partition.name).foldl
    (fun tAcc n =>
      tryAcquire tAcc n b
        (stableSort (fun g1 g2 => countReplica tAcc g1 n ≤ countReplica tAcc g2 n)
          avail))
    t

/-- balancer._decommission_brokers_in_group: rebalance the group (an
EmptyReplicationGroupError is caught and only logged), then force-move the
replicas still held by decommissioned brokers; if one of them is still
non-empty, raise BrokerDecommissionError. -/
def decommissionBrokersInGroup (t : Topology) (rgId : String) :
    Except (Err × Topology) Topology :=
  match rgOf t rgId with
  | none => .ok t
  | some g =>
    let t1 := match rebalanceBrokersRG t g with
      | .ok t2 => t2
      | .error (_, t2) => t2
    g.brokerIds.foldlM (fun tAcc b =>
      if isDecommissioned tAcc b && !brokerEmpty tAcc b then
        let t2 := forceBrokerDecommission tAcc b
        if brokerEmpty t2 b then Except.ok t2
        else Except.error (Err.brokerDecommission, t2)
      else Except.ok tAcc) t1

/-- balancer.decommission_brokers(ids): validate and mark each broker in list
order, then rebalance each affected group. -/
def decommissionBrokers (t : Topology) (ids : List Nat) :
    Except (Err × Topology) Topology :=
  match markLoop ids t [] with
  | .error e => .error e
  | .ok (t1, gids) => gids.foldlM (fun tAcc gid => decommissionBrokersInGroup tAcc gid) t1

/-! ### Replica rebalance across groups (first pass, modelled from the spec) -/

/-- The tie-break order on replication groups: ascending id. -/
def rgKeyLe (g1 g2 : RG) : Bool := strLeB g1.id g2.id

/-- One partition's replica balancing loop.  Modelled from the spec:
cluster_balancer.py (rebalance_replicas) is not under src; for each partition
the groups are separated by replica count and one replica at a time moves from
an over-represented group to an under-represented one via move_partition
(spec section 4.3.1, first pass). -/
def rebalanceReplicasOne : Nat → Topology → PName → Except Err Topology
  | 0, t, _ => .ok t
  | fuel + 1, t, n =>
    let ou := separateGroups t.rgs (fun g => countReplica t g n) rgKeyLe (rfOf t n)
    match ou.1.head?, ou.2.head? with
    | some o, some u =>
      match rgMovePartition t o u n with
      | .error e => .error e
      | .ok t2 => rebalanceReplicasOne fuel t2 n
    | _, _ => .ok t

/-- rebalance_replicas: balance every partition's replica count across the
replication groups.  Modelled from the spec (section 4.3.1, first pass). -/
def rebalanceReplicas (t : Topology) : Except (Err × Topology) Topology :=
  (t.partitions.map Partition.name).foldlM (fun tAcc n =>
    match rebalanceReplicasOne (rfOf tAcc n * tAcc.rgs.length + 1) tAcc n with
    | .error e => Except.error (e, tAcc)
    | .ok t2 => Except.ok t2) t

/-! ### Partition-count rebalance across groups (second pass, under src) -/

/-- One cross-group move recorded by _rebalance_groups_partition_cnt:
the two groups, the partition and the topology right before the move. -/
structure MoveRec where
  overRg : RG
  underRg : RG
  part : PName
  pre : Topology
deriving DecidableEq, Repr

/-- The eligible partitions of an (over, under) pair: the distinct partitions
of the over-loaded group whose replica count there is strictly above the
per-partition quotient and at most the quotient in the under-loaded group
(the Python set is modelled as a key-sorted deduplicated list). -/
def eligibleParts (t : Topology) (overRg underRg : RG) (nrgs : Nat) : List PName :=
  stableSort pnameLe ((rgPartNames t overRg).dedup.filter (fun n =>
    decide (rfOf t n / nrgs < countReplica t overRg n) &&
    decide (countReplica t underRg n ≤ rfOf t n / nrgs)))

/-- The inner partition loop of _rebalance_groups_partition_cnt: move each
eligible partition while the group sizes differ by more than one, breaking
when either group reaches the optimal count. -/
def rgpcInner (overRg underRg : RG) (opt : Nat) :
    List PName → Topology → List MoveRec →
    Except (Err × Topology × List MoveRec) (Topology × List MoveRec)
  | [], t, acc => .ok (t, acc)
  | n :: rest, t, acc =>
    if rgSize t underRg + 1 < rgSize t overRg then
      match movePartitionReplica t overRg underRg n with
      | .error e => .error (e, t, acc)
      | .ok t2 =>
        let acc2 := acc ++ [⟨overRg, underRg, n, t⟩]
        if rgSize t2 underRg == opt || rgSize t2 overRg == opt then .ok (t2, acc2)
        else rgpcInner overRg underRg opt rest t2 acc2
    else .ok (t, acc)

/-- The middle loop over under-loaded groups; breaks to the next over-loaded
group when the over-loaded group reaches the optimal count. -/
def rgpcMiddle (overRg : RG) (opt nrgs : Nat) :
    List RG → Topology → List MoveRec →
    Except (Err × Topology × List MoveRec) (Topology × List MoveRec)
  | [], t, acc => .ok (t, acc)
  | underRg :: rest, t, acc =>
    match rgpcInner overRg underRg opt (eligibleParts t overRg underRg nrgs) t acc with
    | .error e => .error e
    | .ok (t2, acc2) =>
      if rgSize t2 overRg == opt then .ok (t2, acc2)
      else rgpcMiddle overRg opt nrgs rest t2 acc2

/-- The outer loop over over-loaded groups. -/
def rgpcOuter (opt nrgs : Nat) (unders : List RG) :
    List RG → Topology → List MoveRec →
    Except (Err × Topology × List MoveRec) (Topology × List MoveRec)
  | [], t, acc => .ok (t, acc)
  | overRg :: rest, t, acc =>
    match rgpcMiddle overRg opt nrgs unders t acc with
    | .error e => .error e
    | .ok (t2, acc2) => rgpcOuter opt nrgs unders rest t2 acc2

/-- The total replica count across the groups
(sum of len(rg.partitions), computed once). -/
def totalElements (t : Topology) : Nat := (t.rgs.map (rgSize t)).sum

/-- The optimal partition count per group used by
_rebalance_groups_partition_cnt. -/
def optPartitionCnt (t : Topology) : Nat :=
  (computeOptimum t.rgs.length (totalElements t)).1

/-- balancer._rebalance_groups_partition_cnt, with every performed move
recorded together with the topology right before it. -/
def rgpcRun (t : Topology) :
    Except (Err × Topology × List MoveRec) (Topology × List MoveRec) :=
  let total := totalElements t
  let ou := separateGroups t.rgs (fun g => rgSize t g) rgKeyLe total
  if ou.1.isEmpty || ou.2.isEmpty then .ok (t, [])
  else rgpcOuter (optPartitionCnt t) t.rgs.length ou.2 ou.1 t []

/-- The trace of moves performed by _rebalance_groups_partition_cnt
(up to the point of an exception, if one is raised). -/
def rgpcTrace (t : Topology) : List MoveRec :=
  match rgpcRun t with
  | .error (_, _, acc) => acc
  | .ok (_, acc) => acc

/-- balancer._rebalance_groups_partition_cnt as a topology transformer. -/
def rgpcTopo (t : Topology) : Except (Err × Topology) Topology :=
  match rgpcRun t with
  | .error (e, t2, _) => .error (e, t2)
  | .ok (t2, _) => .ok t2

/-! ### Leadership rebalance (partition_count_balancer.py, under src; the
per-broker DFS lives in broker.py, which is not under src) -/

/-- broker.request_leadership(opt, skip_brokers, skip_partitions).
Modelled from the spec: broker.py is not under src.  While the broker is below
opt, it takes leadership of a partition it follows whenever the donor stays at
or above opt; otherwise it recurses into an unvisited donor so that the excess
is pushed down the chain; visited brokers and used partitions are skipped
(spec section 4.3.3, pull phase). -/
def requestLeadership (opt : Nat) (u : Nat) :
    Nat → Topology → List Nat → List PName → Topology × List PName
  | 0, t, _, skipP => (t, skipP)
  | fuel + 1, t, skipB, skipP =>
    if countPreferredReplica t u < opt then
      let cands := t.partitions.filter (fun p =>
        decide (u ∈ p.replicas) && p.replicas.head? != some u &&
        decide (p.name ∉ skipP))
      match cands.find? (fun p =>
          p.replicas.head?.elim false
            (fun l => opt + 1 ≤ countPreferredReplica t l)) with
      | some p =>
        requestLeadership opt u fuel (swapLeaderT t p.name u) skipB (p.name :: skipP)
      | none =>
        match cands.find? (fun p =>
            p.replicas.head?.elim false (fun l => decide (l ∉ skipB))) with
        | some p =>
          match p.replicas.head? with
          | some l =>
            let res := requestLeadership opt l fuel t (u :: skipB) (p.name :: skipP)
            if opt + 1 ≤ countPreferredReplica res.1 l then
              requestLeadership opt u fuel (swapLeaderT res.1 p.name u) skipB res.2
            else res
          | none => (t, skipP)
        | none => (t, skipP)
    else (t, skipP)

/-- broker.donate_leadership(opt, skip_brokers, used_edges).
Modelled from the spec: broker.py is not under src.  While the broker leads
more than opt+1 partitions, it hands leadership of one of its partitions to a
follower that is under-balanced, recursing into a follower that first donates
its own excess when no direct hand-off exists (spec section 4.3.3, push
phase). -/
def donateLeadership (opt : Nat) (u : Nat) :
    Nat → Topology → List Nat → List PName → Topology × List PName
  | 0, t, _, used => (t, used)
  | fuel + 1, t, skipB, used =>
    if opt + 1 < countPreferredReplica t u then
      let cands := t.partitions.filter (fun p =>
        p.replicas.head? == some u && decide (p.name ∉ used))
      match cands.findSome? (fun p =>
          ((p.replicas.drop 1).find? (fun f => countPreferredReplica t f < opt))
            |>.map (fun f => (p.name, f))) with
      | some (n, f) =>
        donateLeadership opt u fuel (swapLeaderT t n f) skipB (n :: used)
      | none =>
        match cands.findSome? (fun p =>
            ((p.replicas.drop 1).find? (fun f => decide (f ∉ skipB)))
              |>.map (fun f => (p.name, f))) with
        | some (n, f) =>
          let res := donateLeadership opt f fuel t (u :: skipB) (n :: used)
          if countPreferredReplica res.1 f < opt then
            donateLeadership opt u fuel (swapLeaderT res.1 n f) skipB res.2
          else res
        | none => (t, used)
    else (t, used)

/-- Fuel bound for one leadership DFS. -/
def leaderFuel (t : Topology) : Nat :=
  t.partitions.length * (t.brokers.length + 1) + t.brokers.length + 1

/-- The brokers classified as under-balanced for the pull phase:
preferred-leader count strictly below opt. -/
def pullList (t : Topology) (opt : Nat) : List Broker :=
  t.brokers.filter (fun b => countPreferredReplica t b.id < opt)

/-- The brokers classified as over-balanced for the push phase:
preferred-leader count strictly above opt + 1. -/
def pushList (t : Topology) (opt : Nat) : List Broker :=
  t.brokers.filter (fun b => opt + 1 < countPreferredReplica t b.id)

/-- The pull phase of rebalancing_non_followers: every broker whose initial
preferred-leader count is below opt requests leadership, sharing the skip
lists across the whole phase. -/
def pullPhase (t : Topology) (opt : Nat) : Topology :=
  ((pullList t opt).foldl (fun acc b =>
      let skB := acc.2.1 ++ [b.id]
      let res := requestLeadership opt b.id (leaderFuel acc.1) acc.1 skB acc.2.2
      (res.1, skB, res.2))
    ((t, [], []) : Topology × List Nat × List PName)).1

/-- The push phase of rebalancing_non_followers: every broker whose
preferred-leader count is above opt + 1 donates leadership. -/
def pushPhase (t : Topology) (opt : Nat) : Topology :=
  ((pushList t opt).foldl (fun acc b =>
      let skB := acc.2.1 ++ [b.id]
      let res := donateLeadership opt b.id (leaderFuel acc.1) acc.1 skB acc.2.2
      (res.1, skB, res.2))
    ((t, [], []) : Topology × List Nat × List PName)).1

/-- balancer.rebalancing_non_followers(opt): the pull phase over the brokers
under opt runs to completion, then the push phase over the brokers over opt+1
runs on the resulting topology. -/
def rebalancingNonFollowers (t : Topology) (opt : Nat) : Topology :=
  pushPhase (pullPhase t opt) opt

/-- balancer.rebalance_leaders: opt is the floor of total partitions over
total brokers. -/
def optLeaderCnt (t : Topology) : Nat :=
  t.partitions.length / t.brokers.length

/-- balancer.rebalance_leaders. -/
def rebalanceLeaders (t : Topology) : Topology :=
  rebalancingNonFollowers t (optLeaderCnt t)

/-! ### Replication-factor changes (partition_count_balancer.py, under src) -/

/-- rg.add_replica(partition): the group's broker not yet holding the
partition with the fewest partitions, ties broken by broker id, is appended to
the replica list.  Modelled from the spec: the kafka_utils rg.py is not under
src (spec section 4.3.4 step 4). -/
def rgAddReplica (t : Topology) (g : RG) (n : PName) : Topology :=
  let cands := g.brokerIds.filter (fun b => !holdsPart t b n)
  match pyMinBy2 (brokerLoad t) (fun b => b) cands with
  | none => t
  | some b => appendReplica t n b

/-- The per-replica loop of balancer.add_replica over the maintained list of
non-full groups: prefer the groups under the per-partition quotient, then the
group with the fewest overall partitions; a group that becomes full is dropped.
With no non-full group left, compute_optimum runs with zero buckets
(ZeroDivisionError). -/
def addReplicaLoop (n : PName) : Nat → List RG → Topology →
    Except (Err × Topology) Topology
  | 0, _, t => .ok t
  | k + 1, nf, t =>
    if nf.isEmpty then .error (.zeroDivision, t)
    else
      let total := (nf.map (fun g => countReplica t g n)).sum
      let q := (computeOptimum nf.length total).1
      let under := nf.filter (fun g => countReplica t g n < q)
      let cands := if under.isEmpty then nf else under
      match pyMinBy (fun g => rgSize t g) cands with
      | none => .error (.valueError, t)
      | some g =>
        let t2 := rgAddReplica t g n
        let nf2 := if g.brokerIds.length ≤ countReplica t2 g n then nf.erase g else nf
        addReplicaLoop n k nf2 t2

/-- balancer.add_replica(partition_name, count): InvalidPartitionError for an
unknown partition, InvalidReplicationFactorError when the new factor would
exceed the number of brokers of the cluster, then count replicas are added. -/
def addReplica (t : Topology) (n : PName) (count : Nat) :
    Except (Err × Topology) Topology :=
  match lookupPartition t n with
  | none => .error (.invalidPartition, t)
  | some p =>
    if t.brokers.length < p.replicas.length + count then
      .error (.invalidReplicationFactor, t)
    else
      addReplicaLoop n count
        (t.rgs.filter (fun g => countReplica t g n < g.brokerIds.length)) t

/-- rg.remove_replica(partition, osr_in_rg): one replica is removed from the
replica list, an out-of-sync one when the group holds one, otherwise the
holder with the most partitions.  Modelled from the spec: the kafka_utils
rg.py is not under src (spec section 4.3.5 step 4). -/
def rgRemoveReplica (t : Topology) (g : RG) (n : PName) (osrInRg : List Nat) :
    Topology :=
  let holders := g.brokerIds.filter (fun b => holdsPart t b n)
  match (holders.filter (fun b => decide (b ∈ osrInRg))).head? with
  | some b => removeReplicaBroker t n b
  | none =>
    match pyMaxBy (brokerLoad t) holders with
    | some b => removeReplicaBroker t n b
    | none => t

/-- The per-replica loop of balancer.remove_replica: candidate groups are those
with an out-of-sync broker, else all groups still holding the partition;
prefer groups above the per-partition quotient, and take the candidate with
the most overall partitions; the osr list and the two group lists are updated
after each removal. -/
def removeReplicaLoop (n : PName) : Nat → List RG → List RG → List Nat →
    Topology → Except (Err × Topology) Topology
  | 0, _, _, _, t => .ok t
  | k + 1, nonEmpty, withOsr, osr, t =>
    let cands := if withOsr.isEmpty then nonEmpty else withOsr
    if cands.isEmpty then .error (.zeroDivision, t)
    else
      let total := (cands.map (fun g => countReplica t g n)).sum
      let q := (computeOptimum cands.length total).1
      let over := cands.filter (fun g => q < countReplica t g n)
      let cands2 := if over.isEmpty then cands else over
      match pyMaxBy (fun g => rgSize t g) cands2 with
      | none => .error (.valueError, t)
      | some g =>
        let osrInRg := g.brokerIds.filter (fun b => decide (b ∈ osr))
        let t2 := rgRemoveReplica t g n osrInRg
        let osr2 := osr.filter (fun b => decide (b ∈ replicasOf t2 n))
        let withOsr2 := if g ∈ withOsr && osrInRg.length == 1
          then withOsr.erase g else withOsr
        let nonEmpty2 := if countReplica t2 g n == 0
          then nonEmpty.erase g else nonEmpty
        removeReplicaLoop n k nonEmpty2 withOsr2 osr2 t2

/-- balancer.remove_replica(partition_name, osr_broker_ids, count):
InvalidPartitionError for an unknown partition,
InvalidReplicationFactorError when count is at least the replication factor,
InvalidBrokerIdError when an osr id is not a broker of the topology; then
count replicas are removed and the preferred leadership is reseated on the
remaining replica leading the fewest partitions. -/
def removeReplica (t : Topology) (n : PName) (osrIds : List Nat) (count : Nat) :
    Except (Err × Topology) Topology :=
  match lookupPartition t n with
  | none => .error (.invalidPartition, t)
  | some p =>
    if p.replicas.length ≤ count then .error (.invalidReplicationFactor, t)
    else if osrIds.any (fun bid => !(t.brokers.any (fun br => br.id == bid))) then
      .error (.invalidBrokerId, t)
    else
      let nonEmpty := t.rgs.filter (fun g => decide (0 < countReplica t g n))
      let withOsr := nonEmpty.filter (fun g =>
        g.brokerIds.any (fun b => decide (b ∈ osrIds)))
      match removeReplicaLoop n count nonEmpty withOsr osrIds t with
      | .error e => .error e
      | .ok t2 =>
        match pyMinBy (countPreferredReplica t2) (replicasOf t2 n) with
        | none => .error (.valueError, t2)
        | some nl => .ok (swapLeaderT t2 n nl)

/-! ### The rebalance entry point (partition_count_balancer.py, under src) -/

/-- The recognized balancer options. -/
structure Args where
  replicationGroups : Bool
  brokersFlag : Bool
  leadersFlag : Bool
  maxPartitionMovements : Option Nat
  maxMovementSize : Option Nat
  maxLeaderChanges : Option Nat
deriving DecidableEq, Repr

/-- The observable outcome of a rebalance call: normal completion, a typed
error raised to the caller, or process termination via sys.exit. -/
inductive RebalanceOutcome where
  | completed (t : Topology)
  | raised (e : Err) (t : Topology)
  | exitedProcess (code : Nat) (t : Topology)
deriving DecidableEq, Repr

/-- balancer.rebalance_replication_groups: RebalanceError when any broker is
inactive, then the replica pass and the partition-count pass. -/
def rebalanceReplicationGroups (t : Topology) : Except (Err × Topology) Topology :=
  if t.brokers.any (fun b => b.inactive) then .error (.rebalanceError, t)
  else
    match rebalanceReplicas t with
    | .error e => .error e
    | .ok t1 => rgpcTopo t1

/-- balancer.rebalance_brokers: every group is rebalanced in turn. -/
def rebalanceBrokersAll (t : Topology) : Except (Err × Topology) Topology :=
  t.rgs.foldlM (fun tAcc g => rebalanceBrokersRG tAcc g) t

/-- balancer.rebalance(): with a truthy max_movement_size the process exits
with status 1; otherwise the three passes run in the fixed order
replication groups, then brokers, then leaders. -/
def rebalance (args : Args) (t : Topology) : RebalanceOutcome :=
  if truthyOpt args.maxMovementSize then .exitedProcess 1 t
  else
    let r : Except (Err × Topology) Topology := do
      let t1 ← if args.replicationGroups then rebalanceReplicationGroups t
        else Except.ok t
      let t2 ← if args.brokersFlag then rebalanceBrokersAll t1 else Except.ok t1
      Except.ok (if args.leadersFlag then rebalanceLeaders t2 else t2)
    match r with
    | .ok tf => .completed tf
    | .error (e, tS) => .raised e tS

/-- Decidable equality on Except results, for evaluating the planner's
fallible operations on concrete inputs. -/
instance {ε α : Type} [DecidableEq ε] [DecidableEq α] : DecidableEq (Except ε α) :=
  fun a b =>
    match a, b with
    | .error e1, .error e2 =>
      if h : e1 = e2 then isTrue (by rw [h])
      else isFalse (by intro hh; cases hh; exact h rfl)
    | .ok a1, .ok a2 =>
      if h : a1 = a2 then isTrue (by rw [h])
      else isFalse (by intro hh; cases hh; exact h rfl)
    | .error _, .ok _ => isFalse (by intro h; cases h)
    | .ok _, .error _ => isFalse (by intro h; cases h)

/-! ### Well-formedness of a topology (the invariants of spec section 3) -/

/-- The topology invariants of spec section 3 that the theorems below rely on:
groups are distinct and partition the distinct brokers, replica lists name
distinct existing brokers, and partition names are unique. -/
structure WF (t : Topology) : Prop where
  rgsNodup : t.rgs.Nodup
  brokerIdsNodup : (t.brokers.map Broker.id).Nodup
  rgBrokersNodup : ∀ g ∈ t.rgs, g.brokerIds.Nodup
  rgDisjoint : t.rgs.Pairwise (fun g1 g2 => ∀ b ∈ g1.brokerIds, b ∉ g2.brokerIds)
  rgBrokersSub : ∀ g ∈ t.rgs, ∀ b ∈ g.brokerIds, b ∈ t.brokers.map Broker.id
  brokerCovered : ∀ br ∈ t.brokers, ∃ g ∈ t.rgs, br.id ∈ g.brokerIds
  partNamesNodup : (t.partitions.map Partition.name).Nodup
  replicasNodup : ∀ p ∈ t.partitions, p.replicas.Nodup
  replicasValid : ∀ p ∈ t.partitions, ∀ b ∈ p.replicas, b ∈ t.brokers.map Broker.id

/-! ### Concrete topologies used by the counterexamples and witnesses -/

/-- Two groups of two brokers each; one partition with replicas on brokers
1, 2 and 3. -/
def exT4 : Topology :=
  { brokers := [⟨1, "a", false, false⟩, ⟨2, "a", false, false⟩,
                ⟨3, "b", false, false⟩, ⟨4, "b", false, false⟩],
    rgs := [⟨"a", [1, 2]⟩, ⟨"b", [3, 4]⟩],
    partitions := [⟨"t", 0, [1, 2, 3]⟩] }

/-- One group with a single broker holding a single partition. -/
def exT1 : Topology :=
  { brokers := [⟨1, "a", false, false⟩],
    rgs := [⟨"a", [1]⟩],
    partitions := [⟨"t", 0, [1]⟩] }

/-- One group with an active broker and a decommissioned broker; the partition
has one replica, so the replication factor can only be raised to two by using
the decommissioned broker. -/
def exT2 : Topology :=
  { brokers := [⟨1, "a", false, false⟩, ⟨2, "a", true, false⟩],
    rgs := [⟨"a", [1, 2]⟩],
    partitions := [⟨"t", 0, [1]⟩] }

/-- Four groups with partition counts (6, 5, 0, 0): groups a and b are
over-loaded, groups c and d are under-loaded, and the optimum is 11 / 4 = 2. -/
def exT5 : Topology :=
  { brokers := [⟨1, "a", false, false⟩, ⟨2, "a", false, false⟩,
                ⟨3, "b", false, false⟩, ⟨4, "b", false, false⟩,
                ⟨5, "c", false, false⟩, ⟨6, "d", false, false⟩],
    rgs := [⟨"a", [1, 2]⟩, ⟨"b", [3, 4]⟩, ⟨"c", [5]⟩, ⟨"d", [6]⟩],
    partitions := [⟨"t", 0, [1, 2, 3]⟩, ⟨"t", 1, [1, 2, 4]⟩,
                   ⟨"t", 2, [1, 2, 3]⟩, ⟨"t", 3, [3, 4]⟩] }

/-- A source group whose broker holds the partition and a destination group
whose only broker already holds it too, so no legal destination exists. -/
def exT7 : Topology :=
  { brokers := [⟨1, "s", false, false⟩, ⟨2, "d", false, false⟩],
    rgs := [⟨"s", [1]⟩, ⟨"d", [2]⟩],
    partitions := [⟨"t", 0, [1, 2]⟩] }

/-- Two groups with one partition each, so the group choice of add_replica is
a tie on the overall partition count. -/
def exT8a : Topology :=
  { brokers := [⟨1, "x", false, false⟩, ⟨2, "x", false, false⟩,
                ⟨3, "y", false, false⟩],
    rgs := [⟨"x", [1, 2]⟩, ⟨"y", [3]⟩],
    partitions := [⟨"t", 0, [1]⟩, ⟨"u", 0, [3]⟩] }

/-- The same topology as exT8a with the group container in the opposite
iteration order. -/
def exT8b : Topology := { exT8a with rgs := [⟨"y", [3]⟩, ⟨"x", [1, 2]⟩] }

/-! ### C10: idempotence of rg.add_broker -/

/-- C10: ReplicationGroup.add_broker is idempotent: adding a broker that is
already a member leaves the broker set unchanged, so adding it twice in
succession yields the same broker set as adding it once. -/
theorem C10_addBroker_idempotent (g : RG) (b : Nat) (h : b ∈ g.brokerIds) :
    g.addBroker b = g ∧ (g.addBroker b).addBroker b = g.addBroker b := by
  constructor
  · simp [RG.addBroker, h]
  · simp [RG.addBroker, h]

theorem C10_addBroker_idempotent_witness :
    3 ∈ (RG.mk "r" [3]).brokerIds ∧
      ((RG.mk "r" [3]).addBroker 3 = RG.mk "r" [3] ∧
       ((RG.mk "r" [3]).addBroker 3).addBroker 3 = (RG.mk "r" [3]).addBroker 3) :=
  ⟨by decide, C10_addBroker_idempotent (RG.mk "r" [3]) 3 (by decide)⟩

/-! ### C9: remove_replica validates the out-of-sync broker ids -/

/-- C9: remove_replica raises InvalidBrokerIdError whenever some id of
osr_broker_ids is not a broker id of the topology, although the partition
exists and count is below the replication factor; the check runs after the
partition and replication-factor checks and before any removal, so the
topology carried by the error is the unchanged input. -/
theorem C9_remove_replica_invalid_osr (t : Topology) (n : PName)
    (osrIds : List Nat) (count : Nat) (p : Partition)
    (hp : lookupPartition t n = some p)
    (hf : count < p.replicas.length)
    (hbad : ∃ bid ∈ osrIds, ∀ br ∈ t.brokers, br.id ≠ bid) :
    removeReplica t n osrIds count = .error (.invalidBrokerId, t) := by
  obtain ⟨bid, hmem, hnone⟩ := hbad
  have hany : osrIds.any (fun bid => !(t.brokers.any (fun br => br.id == bid))) = true := by
    refine List.any_eq_true.mpr ⟨bid, hmem, ?_⟩
    simp only [Bool.not_eq_eq_eq_not, Bool.not_true, List.any_eq_false]
    intro br hbr
    simpa using hnone br hbr
  simp only [removeReplica, hp, if_neg (Nat.not_le.mpr hf), hany, if_pos]

theorem C9_remove_replica_invalid_osr_witness :
    removeReplica exT4 ("t", 0) [7] 1 = .error (.invalidBrokerId, exT4) :=
  C9_remove_replica_invalid_osr exT4 ("t", 0) [7] 1 ⟨"t", 0, [1, 2, 3]⟩
    (by decide) (by decide) ⟨7, by decide, by decide⟩

/-! ### C4: the out-of-sync list is not restricted to replica holders -/

/-- C4: with an out-of-sync id naming a broker that holds no replica of the
partition, the source still treats that broker's group as the preferred
candidate group: here group b (brokers 3 and 4) is selected because broker 4
is listed out-of-sync, although broker 4 holds no replica, and the group's
only replica (on broker 3) is removed.  Under the claim the OSR set would be
empty and the over-replicated group a would donate instead. -/
theorem C4_code_divergence :
    (4 ∈ replicasOf exT4 ("t", 0)) = False ∧
    removeReplica exT4 ("t", 0) [4] 1 =
      .ok { exT4 with partitions := [⟨"t", 0, [2, 1]⟩] } := by
  constructor
  · simp only [eq_iff_iff, iff_false]
    decide
  · decide

/-! ### C7: the cross-group move crashes instead of silently skipping -/

/-- C7: when every broker of the destination group already holds the
partition, move_partition_replica and move_partition raise the untyped
ValueError of max() and min() on an empty sequence instead of silently
performing no move. -/
theorem C7_crash_eval :
    movePartitionReplica exT7 (RG.mk "s" [1]) (RG.mk "d" [2]) ("t", 0) =
      .error .valueError ∧
    rgMovePartition exT7 (RG.mk "s" [1]) (RG.mk "d" [2]) ("t", 0) =
      .error .valueError := by
  decide

/-! ### C3: max_movement_size is rejected by process exit, not a typed error -/

/-- C3: a rebalance call with max_movement_size set terminates the process via
sys.exit(1); the outcome is process exit, not a typed error raised to the
caller. -/
theorem C3_counterexample :
    rebalance (Args.mk true true true none (some 1) none) exT4 =
      .exitedProcess 1 exT4 := by
  decide

/-- C3 (amended): whenever max_movement_size is set to a truthy (non-zero)
value, the count-based rebalance exits the process with status 1 and leaves
the topology unchanged; a value of zero is falsy in Python and is treated as
unset, acting exactly like an absent option. -/
theorem C3_amended (args : Args) (t : Topology)
    (h : truthyOpt args.maxMovementSize = true) :
    rebalance args t = .exitedProcess 1 t ∧
    rebalance { args with maxMovementSize := some 0 } t =
      rebalance { args with maxMovementSize := none } t := by
  constructor
  · simp only [rebalance, h, if_pos]
  · simp only [rebalance, truthyOpt]
    norm_num

theorem C3_amended_witness :
    truthyOpt (Args.mk true true true none (some 7) none).maxMovementSize = true ∧
    (rebalance (Args.mk true true true none (some 7) none) exT1 =
        .exitedProcess 1 exT1 ∧
      rebalance (Args.mk true true true none (some 0) none) exT1 =
        rebalance (Args.mk true true true none none none) exT1) :=
  ⟨by decide, C3_amended (Args.mk true true true none (some 7) none) exT1 (by decide)⟩

/-! ### C6: classification thresholds and phase order of the leader rebalance -/

/-- C6: rebalance_leaders computes opt as the floor of the partition count
over the broker count; a broker is processed by the pull phase exactly when
its preferred-leader count in the input topology is strictly below opt, and by
the push phase exactly when its count in the post-pull topology is strictly
above opt + 1; the pull phase over the under-balanced brokers runs to
completion before the push phase starts, which runs on the pull phase's
result. -/
theorem C6_leader_classification (t : Topology) :
    optLeaderCnt t = t.partitions.length / t.brokers.length ∧
    rebalanceLeaders t = pushPhase (pullPhase t (optLeaderCnt t)) (optLeaderCnt t) ∧
    (∀ b, b ∈ pullList t (optLeaderCnt t) ↔
      b ∈ t.brokers ∧ countPreferredReplica t b.id < optLeaderCnt t) ∧
    (∀ b, b ∈ pushList (pullPhase t (optLeaderCnt t)) (optLeaderCnt t) ↔
      b ∈ (pullPhase t (optLeaderCnt t)).brokers ∧
        optLeaderCnt t + 1 < countPreferredReplica (pullPhase t (optLeaderCnt t)) b.id) := by
  refine ⟨rfl, rfl, ?_, ?_⟩
  · intro b
    simp [pullList, List.mem_filter]
  · intro b
    simp [pushList, List.mem_filter]

/-! ### C1: decommission_brokers marks brokers before validating later ids -/

/-- C1: decommissioning the list [1, 99] on a topology whose only broker is 1
raises InvalidBrokerIdError, but the topology carried past the raise is not
the input: broker 1, named by a valid id earlier in the list, has already been
marked decommissioned. -/
theorem C1_counterexample :
    decommissionBrokers exT1 [1, 99] =
      .error (.invalidBrokerId,
        Topology.mk [⟨1, "a", true, false⟩] [⟨"a", [1]⟩] [⟨"t", 0, [1]⟩]) ∧
    Topology.mk [⟨1, "a", true, false⟩] [⟨"a", [1]⟩] [⟨"t", 0, [1]⟩] ≠ exT1 := by
  decide

/-! ### C2: the replication-factor limit counts all brokers, not active ones -/

/-- C2: on a topology with one active and one decommissioned broker, raising
the replication factor from 1 to 2 exceeds the count of active brokers (1)
but not the count of all brokers (2), and add_replica raises no error; it
even places the new replica on the decommissioned broker. -/
theorem C2_counterexample :
    (exT2.brokers.filter (fun b => !b.decommissioned && !b.inactive)).length = 1 ∧
    rfOf exT2 ("t", 0) + 1 = 2 ∧
    addReplica exT2 ("t", 0) 1 =
      .ok (Topology.mk exT2.brokers exT2.rgs [⟨"t", 0, [1, 2]⟩]) := by
  decide

/-! ### C8: the plan depends on the container iteration order -/

/-- C8: two topologies equal up to the iteration order of the replication
group container (the same groups, brokers and partitions) produce different
plans for the same add_replica call: the tie on the overall partition count is
broken by container order, not by a natural key. -/
theorem C8_counterexample :
    exT8b.rgs.Perm exT8a.rgs ∧
    exT8b.brokers = exT8a.brokers ∧
    exT8b.partitions = exT8a.partitions ∧
    addReplica exT8a ("t", 0) 1 ≠ addReplica exT8b ("t", 0) 1 := by
  refine ⟨List.Perm.swap _ _ _, rfl, rfl, ?_⟩
  decide

/-! ### C5: a revisited under-loaded group can already be at the optimum -/

/-- C5: on exT5 the partition-count pass performs a move whose under-loaded
group is already at the optimal partition count: after group a has filled
groups c and d to the optimum, group b is still over-loaded and moves further
replicas into them. -/
theorem C5_counterexample :
    ((rgpcTrace exT5).any (fun r =>
      rgSize r.pre r.underRg == optPartitionCnt exT5)) = true := by
  decide

/-! ### C1 (amended): the raise happens mid-marking, before any replica move -/

/-- Marking a broker decommissioned changes no broker id. -/
theorem exists_id_mark (t : Topology) (a b : Nat) :
    (∃ br ∈ (markDecommissioned t a).brokers, br.id = b) ↔
      ∃ br ∈ t.brokers, br.id = b := by
  constructor
  · rintro ⟨br, hm, hid⟩
    simp only [markDecommissioned, List.mem_map] at hm
    obtain ⟨br0, hm0, heq⟩ := hm
    refine ⟨br0, hm0, ?_⟩
    subst heq
    by_cases h : (br0.id == a) = true <;> simp [h] at hid ⊢ <;> omega
  · rintro ⟨br, hm, hid⟩
    by_cases h : (br.id == a) = true
    · exact ⟨{ br with decommissioned := true }, by
        simp only [markDecommissioned, List.mem_map]
        exact ⟨br, hm, by simp [h]⟩, hid⟩
    · exact ⟨br, by
        simp only [markDecommissioned, List.mem_map]
        exact ⟨br, hm, by simp [h]⟩, hid⟩

/-- The marking loop raises at the first invalid id with all earlier valid
brokers already marked. -/
theorem markLoop_first_invalid (bad : Nat) (rest : List Nat) :
    ∀ (pre : List Nat) (t : Topology) (gs : List String),
    (∀ b ∈ pre, ∃ br ∈ t.brokers, br.id = b) →
    (∀ br ∈ t.brokers, br.id ≠ bad) →
    markLoop (pre ++ bad :: rest) t gs =
      .error (.invalidBrokerId, pre.foldl markDecommissioned t) := by
  intro pre
  induction pre with
  | nil =>
    intro t gs _ hbad
    have hfind : t.brokers.find? (fun br => br.id == bad) = none := by
      refine List.find?_eq_none.mpr (fun br hbr => ?_)
      simpa using hbad br hbr
    simp [markLoop, hfind]
  | cons a pre ih =>
    intro t gs hpre hbad
    obtain ⟨br0, hm0, hid0⟩ := hpre a (List.mem_cons_self a pre)
    have hsome : (t.brokers.find? (fun br => br.id == a)).isSome := by
      rw [List.find?_isSome]
      exact ⟨br0, hm0, by simp [hid0]⟩
    obtain ⟨br1, hbr1⟩ := Option.isSome_iff_exists.mp hsome
    simp only [List.cons_append, markLoop, hbr1]
    exact ih (markDecommissioned t a) _
      (fun b hb => (exists_id_mark t a b).mpr (hpre b (List.mem_cons_of_mem a hb)))
      (fun br hbr => by
        simp only [markDecommissioned, List.mem_map] at hbr
        obtain ⟨br2, hm2, heq⟩ := hbr
        have := hbad br2 hm2
        subst heq
        by_cases h : (br2.id == a) = true <;> simp [h, this])

/-- Marking brokers never touches partitions or groups. -/
theorem foldl_mark_parts (l : List Nat) :
    ∀ t : Topology, (l.foldl markDecommissioned t).partitions = t.partitions ∧
      (l.foldl markDecommissioned t).rgs = t.rgs := by
  induction l with
  | nil => exact fun t => ⟨rfl, rfl⟩
  | cons a l ih => exact fun t => ih (markDecommissioned t a)

/-- C1 (amended): when the id list is the valid ids pre followed by an invalid
id, decommission_brokers raises InvalidBrokerIdError; the topology at the
raise is the input with exactly the brokers named by pre marked
decommissioned, and no replica has moved (partitions and groups are those of
the input). -/
theorem C1_amended (t : Topology) (pre : List Nat) (bad : Nat) (rest : List Nat)
    (hpre : ∀ b ∈ pre, ∃ br ∈ t.brokers, br.id = b)
    (hbad : ∀ br ∈ t.brokers, br.id ≠ bad) :
    decommissionBrokers t (pre ++ bad :: rest) =
      .error (.invalidBrokerId, pre.foldl markDecommissioned t) ∧
    (pre.foldl markDecommissioned t).partitions = t.partitions ∧
    (pre.foldl markDecommissioned t).rgs = t.rgs := by
  refine ⟨?_, (foldl_mark_parts pre t).1, (foldl_mark_parts pre t).2⟩
  simp [decommissionBrokers, markLoop_first_invalid bad rest pre t [] hpre hbad]

theorem C1_amended_witness :
    decommissionBrokers exT1 [1, 99] =
      .error (.invalidBrokerId, [1].foldl markDecommissioned exT1) ∧
    ([1].foldl markDecommissioned exT1).partitions = exT1.partitions ∧
    ([1].foldl markDecommissioned exT1).rgs = exT1.rgs :=
  C1_amended exT1 [1] 99 [] (by decide) (by decide)

/-! ### C8 (amended): choices with a unique optimum are order-independent -/

/-- The fold underlying pyMinBy returns the unique strict minimizer whenever
one is reachable. -/
theorem foldl_min_unique (f : α → Nat) (a : α) :
    ∀ (xs : List α) (x : α), (a = x ∨ a ∈ xs) →
      (a ≠ x → f a < f x) →
      (∀ b ∈ xs, b ≠ a → f a < f b) →
      xs.foldl (fun best y => if f y < f best then y else best) x = a := by
  intro xs
  induction xs with
  | nil =>
    intro x hmem _ _
    simp only [List.foldl]
    rcases hmem with h | h
    · exact h.symm
    · exact absurd h (List.not_mem_nil a)
  | cons y xs ih =>
    intro x hmem hstart hmin
    simp only [List.foldl]
    have hminxs : ∀ b ∈ xs, b ≠ a → f a < f b :=
      fun b hb hba => hmin b (List.mem_cons_of_mem y hb) hba
    by_cases hfy : f y < f x
    · simp only [hfy, if_true]
      by_cases hya : y = a
      · exact ih y (Or.inl hya.symm) (fun h => absurd hya.symm h) hminxs
      · have hay : f a < f y := hmin y (List.mem_cons_self y xs) hya
        refine ih y (Or.inr ?_) (fun _ => hay) hminxs
        rcases hmem with h | h
        · exfalso
          have h1 : f y < f a := by rw [h]; exact hfy
          exact absurd hay (Nat.lt_asymm h1)
        · rcases List.mem_cons.mp h with h2 | h2
          · exact absurd h2.symm hya
          · exact h2
    · simp only [hfy, if_false]
      refine ih x ?_ hstart hminxs
      rcases hmem with h | h
      · exact Or.inl h
      · rcases List.mem_cons.mp h with h2 | h2
        · by_cases hax : a = x
          · exact Or.inl hax
          · exfalso
            have h1 : f y < f x := by rw [← h2]; exact hstart hax
            exact hfy h1
        · exact Or.inr h2

/-- pyMinBy returns the unique strict minimizer of its key. -/
theorem pyMinBy_unique (f : α → Nat) (l : List α) (a : α) (ha : a ∈ l)
    (hmin : ∀ b ∈ l, b ≠ a → f a < f b) : pyMinBy f l = some a := by
  cases l with
  | nil => exact absurd ha (List.not_mem_nil a)
  | cons x xs =>
    simp only [pyMinBy, Option.some_inj]
    refine foldl_min_unique f a xs x ?_
      (fun h => hmin x (List.mem_cons_self x xs) (fun e => h e.symm))
      (fun b hb hba => hmin b (List.mem_cons_of_mem x hb) hba)
    rcases List.mem_cons.mp ha with h | h
    · exact Or.inl h
    · exact Or.inr h

/-- C8 (amended): the group selection of add_replica, min over the candidate
groups by overall partition count, is independent of the container iteration
order whenever the minimum is attained by exactly one group: any two
orderings of the same candidate groups elect that group. -/
theorem C8_amended (t : Topology) (cands1 cands2 : List RG) (a : RG)
    (hperm : cands1.Perm cands2) (ha : a ∈ cands1)
    (huniq : ∀ g ∈ cands1, g ≠ a → rgSize t a < rgSize t g) :
    pyMinBy (fun g => rgSize t g) cands1 = some a ∧
    pyMinBy (fun g => rgSize t g) cands2 = some a := by
  refine ⟨pyMinBy_unique _ cands1 a ha huniq, pyMinBy_unique _ cands2 a ?_ ?_⟩
  · exact hperm.mem_iff.mp ha
  · intro b hb hba
    exact huniq b (hperm.mem_iff.mpr hb) hba

theorem C8_amended_witness :
    pyMinBy (fun g => rgSize exT1 g) [RG.mk "a" [1], RG.mk "z" []] =
      some (RG.mk "z" []) ∧
    pyMinBy (fun g => rgSize exT1 g) [RG.mk "z" [], RG.mk "a" [1]] =
      some (RG.mk "z" []) :=
  C8_amended exT1 [RG.mk "a" [1], RG.mk "z" []] [RG.mk "z" [], RG.mk "a" [1]]
    (RG.mk "z" []) (List.Perm.swap _ _ _) (by decide) (by decide)

/-! ### Support lemmas: selection membership -/

/-- The fold used by the Python max/min models stays within the candidates. -/
theorem foldl_choice_mem (step : α → α → α)
    (hstep : ∀ best y, step best y = y ∨ step best y = best) :
    ∀ (xs : List α) (x : α), xs.foldl step x ∈ x :: xs := by
  intro xs
  induction xs with
  | nil => intro x; simp [List.foldl]
  | cons y xs ih =>
    intro x
    simp only [List.foldl]
    rcases hstep x y with h | h <;> rw [h]
    · rcases List.mem_cons.mp (ih y) with h2 | h2
      · simp [h2]
      · simp [List.mem_cons, h2]
    · rcases List.mem_cons.mp (ih x) with h2 | h2
      · simp [h2]
      · simp [List.mem_cons, h2]

theorem pyMaxBy_mem (f : α → Nat) (l : List α) (a : α)
    (h : pyMaxBy f l = some a) : a ∈ l := by
  cases l with
  | nil => cases h
  | cons x xs =>
    simp only [pyMaxBy, Option.some_inj] at h
    rw [← h]
    exact foldl_choice_mem _ (fun best y => by split <;> simp) xs x

theorem pyMinBy_mem (f : α → Nat) (l : List α) (a : α)
    (h : pyMinBy f l = some a) : a ∈ l := by
  cases l with
  | nil => cases h
  | cons x xs =>
    simp only [pyMinBy, Option.some_inj] at h
    rw [← h]
    exact foldl_choice_mem _ (fun best y => by split <;> simp) xs x

theorem pyMinBy2_mem (f g : α → Nat) (l : List α) (a : α)
    (h : pyMinBy2 f g l = some a) : a ∈ l := by
  cases l with
  | nil => cases h
  | cons x xs =>
    simp only [pyMinBy2, Option.some_inj] at h
    rw [← h]
    exact foldl_choice_mem _ (fun best y => by split <;> simp) xs x

theorem pyMinBy_isSome (f : α → Nat) (l : List α) (h : l ≠ []) :
    ∃ a, pyMinBy f l = some a := by
  cases l with
  | nil => exact absurd rfl h
  | cons x xs => exact ⟨_, rfl⟩

theorem pyMaxBy_isSome (f : α → Nat) (l : List α) (h : l ≠ []) :
    ∃ a, pyMaxBy f l = some a := by
  cases l with
  | nil => exact absurd rfl h
  | cons x xs => exact ⟨_, rfl⟩

theorem pyMinBy2_isSome (f g : α → Nat) (l : List α) (h : l ≠ []) :
    ∃ a, pyMinBy2 f g l = some a := by
  cases l with
  | nil => exact absurd rfl h
  | cons x xs => exact ⟨_, rfl⟩

/-- Members of stableSort are members of the input and conversely. -/
theorem stableSort_perm (le : α → α → Bool) (l : List α) :
    (stableSort le l).Perm l := by
  induction l with
  | nil => exact List.Perm.refl _
  | cons x xs ih =>
    have hins : ∀ (z : α) (m : List α), (insertLe le z m).Perm (z :: m) := by
      intro z m
      induction m with
      | nil => exact List.Perm.refl _
      | cons y ys ihm =>
        simp only [insertLe]
        by_cases h : le y z
        · simp only [h, if_true]
          exact (List.Perm.cons y ihm).trans (List.Perm.swap z y ys)
        · simp only [h, if_false]
          exact List.Perm.refl _
    exact (hins x (stableSort le xs)).trans (List.Perm.cons x ih)

theorem mem_stableSort (le : α → α → Bool) (l : List α) (a : α) :
    a ∈ stableSort le l ↔ a ∈ l := (stableSort_perm le l).mem_iff

/-! ### Support lemmas: effect of a replica-list update on the accessors -/

/-- The update function of updReplicas keeps the partition's name. -/
theorem upd_name (n : PName) (f : List Nat → List Nat) (p : Partition) :
    (if p.name == n then { p with replicas := f p.replicas } else p).name =
      p.name := by
  split <;> rfl

/-- Updating one partition's replica list maps the lookup of any name. -/
theorem lookupPartition_upd (t : Topology) (n m : PName) (f : List Nat → List Nat) :
    lookupPartition (updReplicas t n f) m =
      (lookupPartition t m).map (fun p =>
        if p.name == n then { p with replicas := f p.replicas } else p) := by
  simp only [lookupPartition, updReplicas, List.find?_map]
  have hpred : ((fun p : Partition => p.name == m) ∘
      (fun p => if p.name == n then { p with replicas := f p.replicas } else p)) =
      (fun p : Partition => p.name == m) := by
    funext p
    simp only [Function.comp]
    rw [upd_name n f p]
  rw [hpred]

/-- The replica list of any other partition is untouched. -/
theorem replicasOf_upd_ne (t : Topology) (n m : PName) (f : List Nat → List Nat)
    (hnm : m ≠ n) : replicasOf (updReplicas t n f) m = replicasOf t m := by
  simp only [replicasOf, lookupPartition_upd]
  cases h : lookupPartition t m with
  | none => rfl
  | some p =>
    have hname : p.name = m := by
      have := List.find?_some h
      simpa using this
    have hne : ¬(p.name = n) := by
      rw [hname]
      exact hnm
    simp [hne]

/-- The replica list of the updated partition is rewritten by f. -/
theorem replicasOf_upd_self (t : Topology) (n : PName) (f : List Nat → List Nat)
    (p : Partition) (hp : lookupPartition t n = some p) :
    replicasOf (updReplicas t n f) n = f p.replicas := by
  have hname : p.name = n := by
    have := List.find?_some hp
    simpa using this
  simp [replicasOf, lookupPartition_upd, hp, hname]

/-- Updating a partition's replicas keeps every partition name (in order). -/
theorem partNames_upd (t : Topology) (n : PName) (f : List Nat → List Nat) :
    (updReplicas t n f).partitions.map Partition.name =
      t.partitions.map Partition.name := by
  simp only [updReplicas, List.map_map]
  exact List.map_congr_left (fun p _ => upd_name n f p)

/-- Brokers and groups are untouched by a replica-list update. -/
theorem brokers_upd (t : Topology) (n : PName) (f : List Nat → List Nat) :
    (updReplicas t n f).brokers = t.brokers := rfl

theorem rgs_upd (t : Topology) (n : PName) (f : List Nat → List Nat) :
    (updReplicas t n f).rgs = t.rgs := rfl

/-- A move keeps every replication factor: the replica list of the moved
partition keeps its length and no other partition changes. -/
theorem rfOf_movePart (t : Topology) (n m : PName) (src dst : Nat) :
    rfOf (movePart t n src dst) m = rfOf t m := by
  by_cases hnm : m = n
  · subst hnm
    cases hp : lookupPartition t m with
    | none =>
      have h1 : lookupPartition (movePart t m src dst) m = none := by
        rw [movePart, lookupPartition_upd, hp]
        rfl
      simp [rfOf, replicasOf, h1, hp]
    | some p =>
      have h1 : replicasOf (movePart t m src dst) m =
          p.replicas.map (fun b => if b == src then dst else b) :=
        replicasOf_upd_self t m _ p hp
      simp only [rfOf]
      rw [h1, List.length_map]
      simp [replicasOf, hp]
  · simp [rfOf, movePart, replicasOf_upd_ne t n m _ hnm]

/-- A move of one partition leaves the replica counts of every other
partition unchanged in every group. -/
theorem countReplica_movePart_ne (t : Topology) (n m : PName) (src dst : Nat)
    (g : RG) (hnm : m ≠ n) :
    countReplica (movePart t n src dst) g m = countReplica t g m := by
  simp [countReplica, holdsPart, movePart, replicasOf_upd_ne t n m _ hnm]

/-! ### Support lemmas: membership in a replica list after a replace -/

theorem mem_map_replace_iff (old : List Nat) (src dst b : Nat)
    (hbd : b ≠ dst) (hbs : b ≠ src) :
    (b ∈ old.map (fun x => if x == src then dst else x)) ↔ b ∈ old := by
  induction old with
  | nil => simp
  | cons y ys ih =>
    simp only [List.map_cons, List.mem_cons, ih]
    by_cases h : y = src
    · subst h
      have hy : (y == y) = true := by simp
      constructor
      · rintro (h2 | h2)
        · rw [hy] at h2
          simp only [if_true] at h2
          exact absurd h2 hbd
        · exact Or.inr h2
      · rintro (h2 | h2)
        · exact absurd h2 hbs
        · exact Or.inr h2
    · have hfalse : (y == src) = false := by simp [h]
      rw [hfalse]
      simp

theorem src_not_mem_map_replace (old : List Nat) (src dst : Nat) (hsd : src ≠ dst) :
    src ∉ old.map (fun x => if x == src then dst else x) := by
  intro hmem
  obtain ⟨x, _, hx⟩ := List.mem_map.mp hmem
  by_cases h : x = src
  · subst h
    have hy : (x == x) = true := by simp
    rw [hy] at hx
    simp only [if_true] at hx
    exact hsd hx.symm
  · have hfalse : (x == src) = false := by simp [h]
    rw [hfalse] at hx
    simp only [Bool.false_eq_true, if_false] at hx
    exact h hx

/-! ### Support lemmas: counting -/

/-- Splitting a disjunctive count: when the extra alternative r does not
satisfy p, counting p-or-equal-to-r splits into the count of r plus the count
of p. -/
theorem countP_or_count (l : List Nat) (p : Nat → Bool) (r : Nat)
    (hpr : p r = false) :
    l.countP (fun b => (b == r) || p b) = l.count r + l.countP p := by
  induction l with
  | nil => simp
  | cons a l ih =>
    by_cases h : a = r
    · subst h
      have ha : (a == a) = true := by simp
      simp only [List.countP_cons, List.count_cons, ha, Bool.true_or, if_true,
        ih, hpr]
      simp
      omega
    · have hfa : (a == r) = false := by simp [h]
      simp only [List.countP_cons, List.count_cons, hfa, Bool.false_or, ih]
      simp [h]
      omega

/-- In a family of pairwise-disjoint duplicate-free lists, an element covered
by one of them is counted exactly once in total. -/
theorem sum_count_eq_one (gs : List (List Nat)) (r : Nat)
    (hGnd : ∀ g ∈ gs, g.Nodup)
    (hdisj : gs.Pairwise (fun g1 g2 => ∀ b ∈ g1, b ∉ g2))
    (hr : ∃ g ∈ gs, r ∈ g) :
    (gs.map (fun g => g.count r)).sum = 1 := by
  induction gs with
  | nil =>
    obtain ⟨g, hg, _⟩ := hr
    exact absurd hg (List.not_mem_nil g)
  | cons g gs ih =>
    have hpair := List.pairwise_cons.mp hdisj
    by_cases hrg : r ∈ g
    · have hcnt : g.count r = 1 :=
        List.count_eq_one_of_mem (hGnd g (List.mem_cons_self g gs)) hrg
      have hzero : ∀ x ∈ gs.map (fun g2 => g2.count r), x = 0 := by
        intro x hx
        obtain ⟨g2, hg2, hx2⟩ := List.mem_map.mp hx
        rw [← hx2]
        exact List.count_eq_zero.mpr (hpair.1 g2 hg2 r hrg)
      simp only [List.map_cons, List.sum_cons, hcnt, List.sum_eq_zero hzero]
      omega
    · have hcnt : g.count r = 0 := List.count_eq_zero.mpr hrg
      obtain ⟨g2, hg2, hr2⟩ := hr
      rcases List.mem_cons.mp hg2 with h2 | h2
      · exact absurd (h2 ▸ hr2) hrg
      · simp only [List.map_cons, List.sum_cons, hcnt, Nat.zero_add]
        exact ih (fun g3 hg3 => hGnd g3 (List.mem_cons_of_mem g hg3)) hpair.2
          ⟨g2, h2, hr2⟩

/-- Sums of pointwise-added maps split. -/
theorem sum_map_add (l : List α) (f g : α → Nat) :
    (l.map (fun x => f x + g x)).sum = (l.map f).sum + (l.map g).sum := by
  induction l with
  | nil => rfl
  | cons a l ih =>
    simp only [List.map_cons, List.sum_cons, ih]
    omega

/-- In a family of pairwise-disjoint duplicate-free lists, the members of a
duplicate-free list R covered by the family are counted |R| times in total. -/
theorem sum_countP_mem (gs : List (List Nat)) :
    ∀ (R : List Nat),
    (∀ g ∈ gs, g.Nodup) →
    gs.Pairwise (fun g1 g2 => ∀ b ∈ g1, b ∉ g2) →
    R.Nodup →
    (∀ b ∈ R, ∃ g ∈ gs, b ∈ g) →
    (gs.map (fun g => g.countP (fun b => decide (b ∈ R)))).sum = R.length := by
  intro R
  induction R with
  | nil =>
    intro _ _ _ _
    have : ∀ x ∈ gs.map (fun g => g.countP (fun b => decide (b ∈ ([] : List Nat)))), x = 0 := by
      intro x hx
      obtain ⟨g, _, hx2⟩ := List.mem_map.mp hx
      rw [← hx2]
      simp
    simp [List.sum_eq_zero this]
  | cons r R ih =>
    intro hGnd hdisj hRnd hcov
    have hrR : r ∉ R := (List.nodup_cons.mp hRnd).1
    have hsplit : ∀ g : List Nat,
        g.countP (fun b => decide (b ∈ r :: R)) =
          g.count r + g.countP (fun b => decide (b ∈ R)) := by
      intro g
      have := countP_or_count g (fun b => decide (b ∈ R)) r (by simp [hrR])
      rw [← this]
      apply List.countP_congr
      intro b _
      by_cases hbr : b = r
      · subst hbr
        simp
      · have hfa : (b == r) = false := by simp [hbr]
        simp [List.mem_cons, hfa, hbr]
    calc (gs.map (fun g => g.countP (fun b => decide (b ∈ r :: R)))).sum
        = (gs.map (fun g => g.count r + g.countP (fun b => decide (b ∈ R)))).sum := by
          congr 1
          exact List.map_congr_left (fun g _ => hsplit g)
      _ = (gs.map (fun g => g.count r)).sum +
            (gs.map (fun g => g.countP (fun b => decide (b ∈ R)))).sum :=
          sum_map_add gs _ _
      _ = 1 + R.length := by
          rw [sum_count_eq_one gs r hGnd hdisj (hcov r (List.mem_cons_self r R)),
            ih hGnd hdisj (List.nodup_cons.mp hRnd).2
              (fun b hb => hcov b (List.mem_cons_of_mem r hb))]
      _ = (r :: R).length := by
          rw [List.length_cons]
          omega

/-! ### Support lemmas: effect of appending a replica -/

theorem pyMinBy_none (f : α → Nat) (l : List α) (h : pyMinBy f l = none) :
    l = [] := by
  cases l with
  | nil => rfl
  | cons x xs => cases h

theorem pyMinBy2_none (f g : α → Nat) (l : List α) (h : pyMinBy2 f g l = none) :
    l = [] := by
  cases l with
  | nil => rfl
  | cons x xs => cases h

theorem pyMaxBy_none (f : α → Nat) (l : List α) (h : pyMaxBy f l = none) :
    l = [] := by
  cases l with
  | nil => rfl
  | cons x xs => cases h

theorem replicasOf_append (t : Topology) (n : PName) (bnew : Nat) (p0 : Partition)
    (hp : lookupPartition t n = some p0) :
    replicasOf (appendReplica t n bnew) n = replicasOf t n ++ [bnew] := by
  have h1 := replicasOf_upd_self t n (fun rs => rs ++ [bnew]) p0 hp
  have h2 : replicasOf t n = p0.replicas := by simp [replicasOf, hp]
  simp only [appendReplica]
  rw [h1, h2]

theorem lookup_append_isSome (t : Topology) (n : PName) (bnew : Nat)
    (h : (lookupPartition t n).isSome) :
    (lookupPartition (appendReplica t n bnew) n).isSome := by
  simp only [appendReplica, lookupPartition_upd]
  cases hp : lookupPartition t n with
  | none => rw [hp] at h; cases h
  | some p => simp

/-- Appending a fresh broker to the replica list raises the group's replica
count by the number of occurrences of that broker in the group. -/
theorem countReplica_append_self (t : Topology) (n : PName) (bnew : Nat) (g : RG)
    (hsome : (lookupPartition t n).isSome) (hbn : bnew ∉ replicasOf t n) :
    countReplica (appendReplica t n bnew) g n =
      countReplica t g n + g.brokerIds.count bnew := by
  obtain ⟨p0, hp⟩ := Option.isSome_iff_exists.mp hsome
  have hrep := replicasOf_append t n bnew p0 hp
  simp only [countReplica, holdsPart, hrep]
  have hpt : ∀ b ∈ g.brokerIds,
      decide (b ∈ replicasOf t n ++ [bnew]) =
        ((b == bnew) || decide (b ∈ replicasOf t n)) := by
    intro b _
    by_cases hb : b = bnew
    · subst hb
      simp
    · have hf : (b == bnew) = false := by simp [hb]
      simp [List.mem_append, hf, hb]
  rw [List.countP_congr (fun x hx => by rw [hpt x hx]),
    countP_or_count _ _ _ (by simp [hbn])]
  omega

/-- The disjointness relation on broker lists is symmetric. -/
theorem disj_symm : Symmetric (fun g1 g2 : RG => ∀ b ∈ g1.brokerIds, b ∉ g2.brokerIds) := by
  intro g1 g2 h b hb2 hb1
  exact h b hb1 hb2

/-! ### C2 (amended): the limit counts all brokers, and within it no error -/

/-- Progress of the add_replica loop: with well-formed groups, a present
partition and enough brokers, every round finds a non-full group and a fresh
broker, so the loop never errors. -/
theorem addReplicaLoop_ok (n : PName) :
    ∀ (k : Nat) (t : Topology) (nf : List RG),
    (∀ g ∈ t.rgs, g.brokerIds.Nodup) →
    t.rgs.Pairwise (fun g1 g2 => ∀ b ∈ g1.brokerIds, b ∉ g2.brokerIds) →
    (∀ g ∈ t.rgs, ∀ b ∈ g.brokerIds, b ∈ t.brokers.map Broker.id) →
    (∀ br ∈ t.brokers, ∃ g ∈ t.rgs, br.id ∈ g.brokerIds) →
    (t.brokers.map Broker.id).Nodup →
    (lookupPartition t n).isSome →
    (replicasOf t n).Nodup →
    (∀ b ∈ replicasOf t n, b ∈ t.brokers.map Broker.id) →
    nf.Nodup →
    (∀ g, g ∈ nf ↔ g ∈ t.rgs ∧ countReplica t g n < g.brokerIds.length) →
    rfOf t n + k ≤ t.brokers.length →
    ∃ t2, addReplicaLoop n k nf t = .ok t2 := by
  intro k
  induction k with
  | zero =>
    intro t nf _ _ _ _ _ _ _ _ _ _ _
    exact ⟨t, rfl⟩
  | succ k ih =>
    intro t nf hgnd hdisj hsub hcov hbnd hsome hrnd hrval hnfnd hiff hbound
    -- the non-full list cannot be empty
    have hnfne : nf ≠ [] := by
      intro hnil
      have hall : ∀ g ∈ t.rgs, countReplica t g n = g.brokerIds.length := by
        intro g hg
        by_contra hne
        have hlt : countReplica t g n < g.brokerIds.length :=
          lt_of_le_of_ne (List.countP_le_length _) hne
        have : g ∈ nf := (hiff g).mpr ⟨hg, hlt⟩
        rw [hnil] at this
        exact absurd this (List.not_mem_nil g)
      -- sum of replica counts over the groups equals the replication factor
      have hcount : ∀ g : RG, countReplica t g n =
          g.brokerIds.countP (fun b => decide (b ∈ replicasOf t n)) := by
        intro g
        simp [countReplica, holdsPart]
      have hsum1 : ((t.rgs.map (fun g => g.brokerIds)).map
          (fun ids => ids.countP (fun b => decide (b ∈ replicasOf t n)))).sum =
          (replicasOf t n).length := by
        apply sum_countP_mem
        · intro ids hids
          obtain ⟨g, hg, hgl⟩ := List.mem_map.mp hids
          exact hgl ▸ hgnd g hg
        · exact List.Pairwise.map _ (fun g1 g2 h => h) hdisj
        · exact hrnd
        · intro b hb
          obtain ⟨br, hbr, hbid⟩ := List.mem_map.mp (hrval b hb)
          obtain ⟨g, hg, hbg⟩ := hcov br hbr
          exact ⟨g.brokerIds, List.mem_map.mpr ⟨g, hg, rfl⟩, hbid ▸ hbg⟩
      have hsum2 : ((t.rgs.map (fun g => g.brokerIds)).map
          (fun ids => ids.countP (fun b => decide (b ∈ replicasOf t n)))).sum =
          ((t.rgs.map (fun g => g.brokerIds)).map List.length).sum := by
        rw [List.map_map, List.map_map]
        congr 1
        apply List.map_congr_left
        intro g hg
        simp only [Function.comp]
        rw [← hcount g, hall g hg]
      have hsum3 : ((t.rgs.map (fun g => g.brokerIds)).map
          (fun ids => ids.countP (fun b => decide (b ∈ t.brokers.map Broker.id)))).sum =
          (t.brokers.map Broker.id).length := by
        apply sum_countP_mem
        · intro ids hids
          obtain ⟨g, hg, hgl⟩ := List.mem_map.mp hids
          exact hgl ▸ hgnd g hg
        · exact List.Pairwise.map _ (fun g1 g2 h => h) hdisj
        · exact hbnd
        · intro b hb
          obtain ⟨br, hbr, hbid⟩ := List.mem_map.mp hb
          obtain ⟨g, hg, hbg⟩ := hcov br hbr
          exact ⟨g.brokerIds, List.mem_map.mpr ⟨g, hg, rfl⟩, hbid ▸ hbg⟩
      have hsum4 : ((t.rgs.map (fun g => g.brokerIds)).map
          (fun ids => ids.countP (fun b => decide (b ∈ t.brokers.map Broker.id)))).sum ≤
          ((t.rgs.map (fun g => g.brokerIds)).map List.length).sum := by
        induction (t.rgs.map (fun g => g.brokerIds)) with
        | nil => simp
        | cons ids rest ihx =>
          simp only [List.map_cons, List.sum_cons]
          have h1 : ids.countP (fun b => decide (b ∈ t.brokers.map Broker.id)) ≤
              ids.length := List.countP_le_length _
          omega
      have hBle : t.brokers.length ≤ (replicasOf t n).length := by
        have hlen : (t.brokers.map Broker.id).length = t.brokers.length :=
          List.length_map _ _
        omega
      simp only [rfOf] at hbound
      omega
    -- one step of the loop from any chosen non-full group succeeds
    have hstep : ∀ gs : RG, gs ∈ nf →
        ∃ t3, addReplicaLoop n k
          (if gs.brokerIds.length ≤ countReplica (rgAddReplica t gs n) gs n
            then nf.erase gs else nf) (rgAddReplica t gs n) = .ok t3 := by
      intro gs hgnf
      obtain ⟨hgrgs, hglt⟩ := (hiff gs).mp hgnf
      have hfilne : gs.brokerIds.filter (fun b => !holdsPart t b n) ≠ [] := by
        intro hnilf
        have hallh : ∀ b ∈ gs.brokerIds, holdsPart t b n = true := by
          intro b hb
          have := List.filter_eq_nil_iff.mp hnilf b hb
          simpa using this
        have : countReplica t gs n = gs.brokerIds.length := by
          simp only [countReplica]
          exact List.countP_eq_length.mpr hallh
        omega
      obtain ⟨bs, hbmin⟩ := pyMinBy2_isSome (brokerLoad t) (fun b => b) _ hfilne
      have hbfil := pyMinBy2_mem _ _ _ _ hbmin
      have hbmem : bs ∈ gs.brokerIds := (List.mem_filter.mp hbfil).1
      have hbnotr : bs ∉ replicasOf t n := by
        have := (List.mem_filter.mp hbfil).2
        simpa [holdsPart] using this
      have hAdd : rgAddReplica t gs n = appendReplica t n bs := by
        simp only [rgAddReplica]
        rw [hbmin]
      rw [hAdd]
      obtain ⟨p0, hp0⟩ := Option.isSome_iff_exists.mp hsome
      have hrep2 : replicasOf (appendReplica t n bs) n = replicasOf t n ++ [bs] :=
        replicasOf_append t n bs p0 hp0
      have hcnt2 : ∀ g : RG, countReplica (appendReplica t n bs) g n =
          countReplica t g n + g.brokerIds.count bs :=
        fun g => countReplica_append_self t n bs g hsome hbnotr
      have hcntgs : countReplica (appendReplica t n bs) gs n =
          countReplica t gs n + 1 := by
        rw [hcnt2 gs, List.count_eq_one_of_mem (hgnd gs hgrgs) hbmem]
      have hcnto : ∀ g ∈ t.rgs, g ≠ gs →
          countReplica (appendReplica t n bs) g n = countReplica t g n := by
        intro g hg hne
        rw [hcnt2 g, List.count_eq_zero.mpr, Nat.add_zero]
        exact (List.Pairwise.forall disj_symm hdisj hgrgs hg hne.symm) bs hbmem
      apply ih (appendReplica t n bs)
      · exact hgnd
      · exact hdisj
      · exact hsub
      · exact hcov
      · exact hbnd
      · exact lookup_append_isSome t n bs hsome
      · rw [hrep2]
        exact List.Nodup.append hrnd (List.nodup_singleton bs)
          (by simp [List.disjoint_singleton, hbnotr])
      · rw [hrep2]
        intro b hb
        rcases List.mem_append.mp hb with hb2 | hb2
        · exact hrval b hb2
        · rw [List.mem_singleton.mp hb2]
          exact hsub gs hgrgs bs hbmem
      · split
        · exact List.Nodup.erase gs hnfnd
        · exact hnfnd
      · intro g
        constructor
        · intro hgm
          by_cases hfull : gs.brokerIds.length ≤
              countReplica (appendReplica t n bs) gs n
          · rw [if_pos hfull] at hgm
            obtain ⟨hne, hmem⟩ := (List.Nodup.mem_erase_iff hnfnd).mp hgm
            obtain ⟨hrgs3, hlt3⟩ := (hiff g).mp hmem
            exact ⟨hrgs3, by rw [hcnto g hrgs3 hne]; exact hlt3⟩
          · rw [if_neg hfull] at hgm
            obtain ⟨hrgs3, hlt3⟩ := (hiff g).mp hgm
            refine ⟨hrgs3, ?_⟩
            by_cases hge : g = gs
            · subst hge
              omega
            · rw [hcnto g hrgs3 hge]
              exact hlt3
        · rintro ⟨hrgs3, hlt3⟩
          by_cases hge : g = gs
          · subst hge
            rw [if_neg (not_le.mpr hlt3)]
            exact hgnf
          · have hcnteq := hcnto g hrgs3 hge
            have hmem : g ∈ nf := (hiff g).mpr ⟨hrgs3, by rw [← hcnteq]; exact hlt3⟩
            split
            · exact (List.Nodup.mem_erase_iff hnfnd).mpr ⟨hge, hmem⟩
            · exact hmem
      · have hlen2 : rfOf (appendReplica t n bs) n = rfOf t n + 1 := by
          simp only [rfOf, hrep2, List.length_append, List.length_singleton]
        have hbrk : (appendReplica t n bs).brokers.length = t.brokers.length := rfl
        omega
    -- the loop takes one step
    have hnfe : nf.isEmpty = false := by
      cases nf with
      | nil => exact absurd rfl hnfne
      | cons a l => rfl
    simp only [addReplicaLoop, hnfe, Bool.false_eq_true, if_false]
    split
    case h_1 heq =>
      exfalso
      have hcnil := pyMinBy_none _ _ heq
      split at hcnil
      · exact hnfne hcnil
      · rename_i hcond
        rw [hcnil] at hcond
        simp at hcond
    case h_2 g hgmin =>
      have hgc := pyMinBy_mem _ _ _ hgmin
      have hgnf2 : g ∈ nf := by
        split at hgc
        · exact hgc
        · exact List.mem_of_mem_filter hgc
      exact hstep g hgnf2

/-- C2 (amended): for a well-formed topology and an existing partition,
add_replica raises InvalidReplicationFactorError exactly when the requested
factor exceeds the count of ALL brokers of the topology (decommissioned and
inactive brokers included), and when that limit is respected no error of any
kind is raised. -/
theorem C2_amended (t : Topology) (n : PName) (count : Nat) (p : Partition)
    (hwf : WF t) (hp : lookupPartition t n = some p) :
    (t.brokers.length < p.replicas.length + count →
      addReplica t n count = .error (.invalidReplicationFactor, t)) ∧
    (p.replicas.length + count ≤ t.brokers.length →
      ∃ t2, addReplica t n count = .ok t2) := by
  have hpmem : p ∈ t.partitions := by
    have hp2 : t.partitions.find? (fun q => q.name == n) = some p := hp
    exact List.mem_of_find?_eq_some hp2
  have hrep : replicasOf t n = p.replicas := by
    simp [replicasOf, hp]
  constructor
  · intro hover
    simp only [addReplica, hp, if_pos hover]
  · intro hle
    simp only [addReplica, hp, if_neg (not_lt.mpr hle)]
    apply addReplicaLoop_ok n count t
      (t.rgs.filter (fun g => countReplica t g n < g.brokerIds.length))
      hwf.rgBrokersNodup hwf.rgDisjoint hwf.rgBrokersSub hwf.brokerCovered
      hwf.brokerIdsNodup (by simp [hp])
      (by rw [hrep]; exact hwf.replicasNodup p hpmem)
      (by rw [hrep]; exact hwf.replicasValid p hpmem)
      (List.Nodup.filter _ hwf.rgsNodup)
      (by
        intro g
        simp [List.mem_filter])
      (by
        have : rfOf t n = p.replicas.length := by rw [rfOf, hrep]
        omega)

theorem C2_amended_witness :
    (exT4.brokers.length <
        (Partition.mk "t" 0 [1, 2, 3]).replicas.length + 1 →
      addReplica exT4 ("t", 0) 1 = .error (.invalidReplicationFactor, exT4)) ∧
    ((Partition.mk "t" 0 [1, 2, 3]).replicas.length + 1 ≤ exT4.brokers.length →
      ∃ t2, addReplica exT4 ("t", 0) 1 = .ok t2) :=
  C2_amended exT4 ("t", 0) 1 (Partition.mk "t" 0 [1, 2, 3])
    ⟨by decide, by decide, by decide, by decide, by decide, by decide, by decide,
     by decide, by decide⟩ (by decide)

/-! ### Support lemmas: effect of a replica-list update on broker loads -/

/-- Entry-wise account of an update on the partition count of one broker:
only the entry of the updated name changes its contribution. -/
theorem countP_upd_aux (b : Nat) (n : PName) (f : List Nat → List Nat) :
    ∀ (l : List Partition) (p0 : Partition),
    l.find? (fun p => p.name == n) = some p0 →
    (l.map Partition.name).Nodup →
    (l.map (fun p => if p.name == n then { p with replicas := f p.replicas } else p)).countP
        (fun p => decide (b ∈ p.replicas)) +
      (if b ∈ p0.replicas then 1 else 0) =
    l.countP (fun p => decide (b ∈ p.replicas)) +
      (if b ∈ f p0.replicas then 1 else 0) := by
  intro l
  induction l with
  | nil =>
    intro p0 hfind _
    cases hfind
  | cons q l ih =>
    intro p0 hfind hnd
    by_cases hq : (q.name == n) = true
    · have hq0 : p0 = q := by
        simp only [List.find?] at hfind
        rw [hq] at hfind
        exact (Option.some_inj.mp hfind).symm
      rw [hq0]
      have hqname : q.name = n := by simpa using hq
      have htail : ∀ p ∈ l, (p.name == n) = false := by
        intro p hp
        have hnin : q.name ∉ l.map Partition.name := (List.nodup_cons.mp hnd).1
        have hpn : p.name ≠ n := by
          intro he
          exact hnin (hqname ▸ he ▸ List.mem_map_of_mem Partition.name hp)
        simpa using hpn
      have hmapeq : l.map (fun p =>
          if p.name == n then { p with replicas := f p.replicas } else p) = l := by
        have h1 : ∀ p ∈ l,
            (if p.name == n then { p with replicas := f p.replicas } else p) = p := by
          intro p hp
          simp [htail p hp]
        calc l.map (fun p =>
              if p.name == n then { p with replicas := f p.replicas } else p)
            = l.map id := List.map_congr_left (fun p hp => by rw [h1 p hp]; rfl)
          _ = l := List.map_id l
      have hhead : (if q.name == n then { q with replicas := f q.replicas } else q) =
          { q with replicas := f q.replicas } := by
        simp [hq]
      simp only [List.map_cons, hhead, hmapeq, List.countP_cons]
      by_cases h1 : b ∈ q.replicas <;> by_cases h2 : b ∈ f q.replicas <;>
        · simp [h1, h2]
          try omega
    · have hqf : (q.name == n) = false := by
        simpa using hq
      have hfind2 : l.find? (fun p => p.name == n) = some p0 := by
        simp only [List.find?] at hfind
        rw [hqf] at hfind
        exact hfind
      have hndtail := (List.nodup_cons.mp hnd).2
      have hhead : (if q.name == n then { q with replicas := f q.replicas } else q) =
          q := by
        simp [hq]
      simp only [List.map_cons, hhead, List.countP_cons]
      have hih := ih p0 hfind2 hndtail
      by_cases h1 : b ∈ p0.replicas <;> by_cases h2 : b ∈ f p0.replicas <;>
        simp [h1, h2] at hih ⊢ <;> omega

/-- Effect of a replica-list rewrite on one broker's partition count. -/
theorem brokerLoad_upd (t : Topology) (n : PName) (f : List Nat → List Nat)
    (b : Nat) (p0 : Partition) (hp : lookupPartition t n = some p0)
    (hnames : (t.partitions.map Partition.name).Nodup) :
    brokerLoad (updReplicas t n f) b + (if b ∈ p0.replicas then 1 else 0) =
      brokerLoad t b + (if b ∈ f p0.replicas then 1 else 0) := by
  have h1 : ∀ (l : List Partition),
      (l.filter (fun p => decide (b ∈ p.replicas))).length =
        l.countP (fun p => decide (b ∈ p.replicas)) := by
    intro l
    exact (List.countP_eq_length_filter _ _).symm
  simp only [brokerLoad, brokerParts, updReplicas, h1]
  exact countP_upd_aux b n f t.partitions p0 hp hnames

/-- A broker mentioned in neither role keeps its load across a move. -/
theorem brokerLoad_movePart_other (t : Topology) (n : PName) (src dst b : Nat)
    (p0 : Partition) (hp : lookupPartition t n = some p0)
    (hnames : (t.partitions.map Partition.name).Nodup)
    (hbs : b ≠ src) (hbd : b ≠ dst) :
    brokerLoad (movePart t n src dst) b = brokerLoad t b := by
  have h := brokerLoad_upd t n
    (fun rs => rs.map (fun x => if x == src then dst else x)) b p0 hp hnames
  rw [movePart]
  have hmem : (b ∈ p0.replicas.map (fun x => if x == src then dst else x)) ↔
      b ∈ p0.replicas := mem_map_replace_iff p0.replicas src dst b hbd hbs
  by_cases h2 : b ∈ p0.replicas
  · simp only [h2, if_true, hmem.mpr h2, if_true] at h ⊢
    omega
  · have h3 : b ∉ p0.replicas.map (fun x => if x == src then dst else x) :=
      fun hc => h2 (hmem.mp hc)
    simp only [h2, if_false, h3, if_false] at h ⊢
    omega

/-- The source broker loses the moved partition. -/
theorem brokerLoad_movePart_src (t : Topology) (n : PName) (src dst : Nat)
    (p0 : Partition) (hp : lookupPartition t n = some p0)
    (hnames : (t.partitions.map Partition.name).Nodup)
    (hsd : src ≠ dst) (hsin : src ∈ p0.replicas) :
    brokerLoad (movePart t n src dst) src + 1 = brokerLoad t src := by
  have h := brokerLoad_upd t n
    (fun rs => rs.map (fun x => if x == src then dst else x)) src p0 hp hnames
  rw [movePart]
  have h3 : src ∉ p0.replicas.map (fun x => if x == src then dst else x) :=
    src_not_mem_map_replace p0.replicas src dst hsd
  simp only [hsin, if_true, h3, if_false] at h ⊢
  omega

/-- A move out of a group whose broker list holds the source once and not the
destination lowers the group size by exactly one. -/
theorem rgSize_movePart_src (t : Topology) (n : PName) (src dst : Nat) (g : RG)
    (p0 : Partition) (hp : lookupPartition t n = some p0)
    (hnames : (t.partitions.map Partition.name).Nodup)
    (hgnd : g.brokerIds.Nodup) (hsrc : src ∈ g.brokerIds)
    (hdst : dst ∉ g.brokerIds) (hsin : src ∈ p0.replicas) :
    rgSize (movePart t n src dst) g + 1 = rgSize t g := by
  have hsd : src ≠ dst := fun he => hdst (he ▸ hsrc)
  simp only [rgSize]
  have haux : ∀ ids : List Nat, ids.Nodup → src ∈ ids → dst ∉ ids →
      (ids.map (brokerLoad (movePart t n src dst))).sum + 1 =
        (ids.map (brokerLoad t)).sum := by
    intro ids
    induction ids with
    | nil =>
      intro _ hmem _
      exact absurd hmem (List.not_mem_nil src)
    | cons b ids ih =>
      intro hnd hmem hdnot
      have hdni : dst ∉ ids := fun hc => hdnot (List.mem_cons_of_mem b hc)
      have hdnb : b ≠ dst := fun he => hdnot (he ▸ List.mem_cons_self b ids)
      simp only [List.map_cons, List.sum_cons]
      by_cases hbs : b = src
      · subst hbs
        have hsni : b ∉ ids := (List.nodup_cons.mp hnd).1
        have htl : (ids.map (brokerLoad (movePart t n b dst))).sum =
            (ids.map (brokerLoad t)).sum := by
          apply congrArg List.sum
          apply List.map_congr_left
          intro x hx
          exact brokerLoad_movePart_other t n b dst x p0 hp hnames
            (fun he => hsni (he ▸ hx)) (fun he => hdni (he ▸ hx))
        have hhd := brokerLoad_movePart_src t n b dst p0 hp hnames hsd hsin
        omega
      · have hmem2 : src ∈ ids := by
          rcases List.mem_cons.mp hmem with h | h
          · exact absurd h.symm hbs
          · exact h
        have hhd := brokerLoad_movePart_other t n src dst b p0 hp hnames hbs hdnb
        have := ih (List.nodup_cons.mp hnd).2 hmem2 hdni
        omega
  exact haux g.brokerIds hgnd hsrc hdst

/-- A move between two other groups leaves this group's size unchanged. -/
theorem rgSize_movePart_other (t : Topology) (n : PName) (src dst : Nat) (g : RG)
    (p0 : Partition) (hp : lookupPartition t n = some p0)
    (hnames : (t.partitions.map Partition.name).Nodup)
    (hsrc : src ∉ g.brokerIds) (hdst : dst ∉ g.brokerIds) :
    rgSize (movePart t n src dst) g = rgSize t g := by
  simp only [rgSize]
  apply congrArg List.sum
  apply List.map_congr_left
  intro x hx
  exact brokerLoad_movePart_other t n src dst x p0 hp hnames
    (fun he => hsrc (he ▸ hx)) (fun he => hdst (he ▸ hx))

/-- Partition names survive a move. -/
theorem partNames_movePart (t : Topology) (n : PName) (src dst : Nat) :
    (movePart t n src dst).partitions.map Partition.name =
      t.partitions.map Partition.name :=
  partNames_upd t n _

/-! ### C5 (amended): conditions holding at every recorded move -/

/-- Members of the over-loaded side of separate_groups carry at least
quotient + 1 load and come from the input items. -/
theorem separateGroups_over_spec (items : List α) (load : α → Nat)
    (keyLe : α → α → Bool) (total : Nat) (x : α)
    (hx : x ∈ (separateGroups items load keyLe total).1) :
    x ∈ items ∧ total / items.length + 1 ≤ load x := by
  simp only [separateGroups, computeOptimum] at hx
  rcases List.mem_append.mp hx with h | h
  · have h2 := List.mem_filter.mp h
    refine ⟨(mem_stableSort _ items x).mp h2.1, ?_⟩
    have := of_decide_eq_true h2.2
    omega
  · have h2 := List.mem_filter.mp (List.mem_of_mem_drop h)
    refine ⟨(mem_stableSort _ items x).mp h2.1, ?_⟩
    have : load x = total / items.length + 1 := by
      have := h2.2
      simpa using this
    omega

/-- Members of the under-loaded side of separate_groups are strictly below the
quotient and come from the input items. -/
theorem separateGroups_under_spec (items : List α) (load : α → Nat)
    (keyLe : α → α → Bool) (total : Nat) (x : α)
    (hx : x ∈ (separateGroups items load keyLe total).2) :
    x ∈ items ∧ load x < total / items.length := by
  simp only [separateGroups, computeOptimum] at hx
  have h2 := List.mem_filter.mp hx
  exact ⟨(mem_stableSort _ items x).mp h2.1, of_decide_eq_true h2.2⟩

/-- Eligible partitions of a pair satisfy the two replica-count conditions at
the topology from which they were computed. -/
theorem eligibleParts_spec (t : Topology) (overRg underRg : RG) (nrgs : Nat)
    (m : PName) (hm : m ∈ eligibleParts t overRg underRg nrgs) :
    rfOf t m / nrgs < countReplica t overRg m ∧
      countReplica t underRg m ≤ rfOf t m / nrgs := by
  have h1 := (mem_stableSort _ _ m).mp hm
  have h2 := List.mem_filter.mp h1
  have h3 := h2.2
  simp only [Bool.and_eq_true, decide_eq_true_eq] at h3
  exact h3

/-- The eligible list of a pair has no duplicate partition names. -/
theorem eligibleParts_nodup (t : Topology) (overRg underRg : RG) (nrgs : Nat) :
    (eligibleParts t overRg underRg nrgs).Nodup := by
  apply (List.Perm.nodup_iff (stableSort_perm _ _)).mpr
  exact List.Nodup.filter _ (List.nodup_dedup _)

/-- A successful cross-group move names a source broker of the over-loaded
group holding the partition and a destination broker of the under-loaded
group not holding it. -/
theorem movePartitionReplica_ok (t : Topology) (overRg underRg : RG)
    (n : PName) (t2 : Topology)
    (h : movePartitionReplica t overRg underRg n = .ok t2) :
    ∃ src dst, src ∈ overRg.brokerIds ∧ holdsPart t src n = true ∧
      dst ∈ underRg.brokerIds ∧ holdsPart t dst n = false ∧
      t2 = movePart t n src dst := by
  simp only [movePartitionReplica] at h
  cases hmax : pyMaxBy (brokerLoad t)
      (overRg.brokerIds.filter (fun b => holdsPart t b n)) with
  | none => rw [hmax] at h; cases h
  | some src =>
    rw [hmax] at h
    cases hmin : pyMinBy (brokerLoad t)
        (underRg.brokerIds.filter (fun b => !holdsPart t b n)) with
    | none => rw [hmin] at h; cases h
    | some dst =>
      rw [hmin] at h
      have hsrc := List.mem_filter.mp (pyMaxBy_mem _ _ _ hmax)
      have hdst := List.mem_filter.mp (pyMinBy_mem _ _ _ hmin)
      refine ⟨src, dst, hsrc.1, hsrc.2, hdst.1, ?_, ?_⟩
      · have := hdst.2
        simp only [Bool.not_eq_eq_eq_not, Bool.not_true] at this
        exact this
      · exact (Option.some_inj.mp (by simpa using h.symm) : _)

/-- The conditions the spec asserts at every move of the partition-count
pass (with the under-side optimum condition removed): the replica-count
quotient conditions, the size gap above one, and the over-loaded group still
above the optimum, all evaluated at the topology right before the move. -/
def moveRecOk (opt nrgs : Nat) (r : MoveRec) : Prop :=
  rfOf r.pre r.part / nrgs < countReplica r.pre r.overRg r.part ∧
  countReplica r.pre r.underRg r.part ≤ rfOf r.pre r.part / nrgs ∧
  rgSize r.pre r.underRg + 1 < rgSize r.pre r.overRg ∧
  opt < rgSize r.pre r.overRg

/-! Equation lemmas for the three loops of the partition-count pass. -/

theorem rgpcInner_cons_err (overRg underRg : RG) (opt : Nat) (m : PName)
    (rest : List PName) (t : Topology) (acc : List MoveRec) (e : Err)
    (hdiff : rgSize t underRg + 1 < rgSize t overRg)
    (hmv : movePartitionReplica t overRg underRg m = .error e) :
    rgpcInner overRg underRg opt (m :: rest) t acc = .error (e, t, acc) := by
  simp only [rgpcInner, if_pos hdiff, hmv]

theorem rgpcInner_cons_ok (overRg underRg : RG) (opt : Nat) (m : PName)
    (rest : List PName) (t : Topology) (acc : List MoveRec) (t2 : Topology)
    (hdiff : rgSize t underRg + 1 < rgSize t overRg)
    (hmv : movePartitionReplica t overRg underRg m = .ok t2) :
    rgpcInner overRg underRg opt (m :: rest) t acc =
      (if rgSize t2 underRg == opt || rgSize t2 overRg == opt then
        Except.ok (t2, acc ++ [(⟨overRg, underRg, m, t⟩ : MoveRec)])
      else rgpcInner overRg underRg opt rest t2
        (acc ++ [(⟨overRg, underRg, m, t⟩ : MoveRec)])) := by
  simp only [rgpcInner, if_pos hdiff, hmv]

theorem rgpcInner_cons_stop (overRg underRg : RG) (opt : Nat) (m : PName)
    (rest : List PName) (t : Topology) (acc : List MoveRec)
    (hdiff : ¬ (rgSize t underRg + 1 < rgSize t overRg)) :
    rgpcInner overRg underRg opt (m :: rest) t acc = .ok (t, acc) := by
  simp only [rgpcInner, if_neg hdiff]

theorem rgpcMiddle_cons_err (overRg : RG) (opt nrgs : Nat) (u : RG)
    (rest : List RG) (t : Topology) (acc : List MoveRec)
    (e : Err × Topology × List MoveRec)
    (h : rgpcInner overRg u opt (eligibleParts t overRg u nrgs) t acc = .error e) :
    rgpcMiddle overRg opt nrgs (u :: rest) t acc = .error e := by
  simp only [rgpcMiddle, h]

theorem rgpcMiddle_cons_ok (overRg : RG) (opt nrgs : Nat) (u : RG)
    (rest : List RG) (t : Topology) (acc : List MoveRec) (t2 : Topology)
    (acc2 : List MoveRec)
    (h : rgpcInner overRg u opt (eligibleParts t overRg u nrgs) t acc =
      .ok (t2, acc2)) :
    rgpcMiddle overRg opt nrgs (u :: rest) t acc =
      (if rgSize t2 overRg == opt then Except.ok (t2, acc2)
       else rgpcMiddle overRg opt nrgs rest t2 acc2) := by
  simp only [rgpcMiddle, h]

theorem rgpcOuter_cons_err (opt nrgs : Nat) (unders : List RG) (o : RG)
    (rest : List RG) (t : Topology) (acc : List MoveRec)
    (e : Err × Topology × List MoveRec)
    (h : rgpcMiddle o opt nrgs unders t acc = .error e) :
    rgpcOuter opt nrgs unders (o :: rest) t acc = .error e := by
  simp only [rgpcOuter, h]

theorem rgpcOuter_cons_ok (opt nrgs : Nat) (unders : List RG) (o : RG)
    (rest : List RG) (t : Topology) (acc : List MoveRec) (t2 : Topology)
    (acc2 : List MoveRec)
    (h : rgpcMiddle o opt nrgs unders t acc = .ok (t2, acc2)) :
    rgpcOuter opt nrgs unders (o :: rest) t acc =
      rgpcOuter opt nrgs unders rest t2 acc2 := by
  simp only [rgpcOuter, h]

/-- Soundness of the inner partition loop: every recorded move satisfies
moveRecOk, the over-loaded group never drops below the optimum, partition
names survive, and groups disjoint from the pair keep their sizes. -/
theorem rgpcInner_sound (overRg underRg : RG) (opt nrgs : Nat)
    (hdisjOU : ∀ b ∈ overRg.brokerIds, b ∉ underRg.brokerIds)
    (hOvNd : overRg.brokerIds.Nodup) :
    ∀ (names : List PName) (t : Topology) (acc : List MoveRec),
    (t.partitions.map Partition.name).Nodup →
    names.Nodup →
    (∀ m ∈ names, rfOf t m / nrgs < countReplica t overRg m ∧
       countReplica t underRg m ≤ rfOf t m / nrgs) →
    opt < rgSize t overRg →
    (∀ r ∈ acc, moveRecOk opt nrgs r) →
    (match rgpcInner overRg underRg opt names t acc with
     | .error e => ∀ r ∈ e.2.2, moveRecOk opt nrgs r
     | .ok pr => (∀ r ∈ pr.2, moveRecOk opt nrgs r) ∧
         opt ≤ rgSize pr.1 overRg ∧
         (pr.1.partitions.map Partition.name).Nodup ∧
         (∀ g : RG, (∀ b ∈ g.brokerIds, b ∉ overRg.brokerIds ∧ b ∉ underRg.brokerIds) →
            rgSize pr.1 g = rgSize t g)) := by
  intro names
  induction names with
  | nil =>
    intro t acc hnames _ _ hinv hacc
    simp only [rgpcInner]
    exact ⟨hacc, Nat.le_of_lt hinv, hnames, fun g _ => by trivial⟩
  | cons m rest ih =>
    intro t acc hnames hnd hconds hinv hacc
    by_cases hdiff : rgSize t underRg + 1 < rgSize t overRg
    · cases hmv : movePartitionReplica t overRg underRg m with
      | error e =>
        rw [rgpcInner_cons_err overRg underRg opt m rest t acc e hdiff hmv]
        exact hacc
      | ok t2 =>
        rw [rgpcInner_cons_ok overRg underRg opt m rest t acc t2 hdiff hmv]
        obtain ⟨src, dst, hsrcg, hsrch, hdstg, hdsth, ht2⟩ :=
          movePartitionReplica_ok t overRg underRg m t2 hmv
        have hsome : ∃ p0, lookupPartition t m = some p0 := by
          cases hp : lookupPartition t m with
          | none =>
            exfalso
            have hnil : replicasOf t m = [] := by simp [replicasOf, hp]
            have h2 : src ∈ replicasOf t m := by simpa [holdsPart] using hsrch
            rw [hnil] at h2
            exact List.not_mem_nil src h2
          | some p0 => exact ⟨p0, rfl⟩
        obtain ⟨p0, hp0⟩ := hsome
        have hsin : src ∈ p0.replicas := by
          have h2 : src ∈ replicasOf t m := by simpa [holdsPart] using hsrch
          simpa [replicasOf, hp0] using h2
        have hdstnov : dst ∉ overRg.brokerIds := fun hc => hdisjOU dst hc hdstg
        have hsz : rgSize t2 overRg + 1 = rgSize t overRg := by
          rw [ht2]
          exact rgSize_movePart_src t m src dst overRg p0 hp0 hnames hOvNd
            hsrcg hdstnov hsin
        have hnames2 : (t2.partitions.map Partition.name).Nodup := by
          rw [ht2, partNames_movePart]
          exact hnames
        have hrecOk : moveRecOk opt nrgs ⟨overRg, underRg, m, t⟩ := by
          obtain ⟨hc1, hc2⟩ := hconds m (List.mem_cons_self m rest)
          exact ⟨hc1, hc2, hdiff, hinv⟩
        have hacc2 : ∀ r ∈ acc ++ [(⟨overRg, underRg, m, t⟩ : MoveRec)],
            moveRecOk opt nrgs r := by
          intro r hr
          rcases List.mem_append.mp hr with h | h
          · exact hacc r h
          · rw [List.mem_singleton.mp h]
            exact hrecOk
        have hpres : ∀ g : RG,
            (∀ b ∈ g.brokerIds, b ∉ overRg.brokerIds ∧ b ∉ underRg.brokerIds) →
            rgSize t2 g = rgSize t g := by
          intro g hg
          rw [ht2]
          apply rgSize_movePart_other t m src dst g p0 hp0 hnames
          · exact fun hc => (hg src hc).1 hsrcg
          · exact fun hc => (hg dst hc).2 hdstg
        by_cases hbrk : (rgSize t2 underRg == opt || rgSize t2 overRg == opt) = true
        · rw [if_pos hbrk]
          exact ⟨hacc2, by show opt ≤ rgSize t2 overRg; omega, hnames2, hpres⟩
        · rw [if_neg hbrk]
          have hneq : rgSize t2 overRg ≠ opt := by
            intro he
            apply hbrk
            simp [he]
          have hinv2 : opt < rgSize t2 overRg := by omega
          have hconds2 : ∀ m2 ∈ rest,
              rfOf t2 m2 / nrgs < countReplica t2 overRg m2 ∧
                countReplica t2 underRg m2 ≤ rfOf t2 m2 / nrgs := by
            intro m2 hm2
            have hne : m2 ≠ m := fun he =>
              (List.nodup_cons.mp hnd).1 (he ▸ hm2)
            have hco := countReplica_movePart_ne t m m2 src dst overRg hne
            have hcu := countReplica_movePart_ne t m m2 src dst underRg hne
            have hrf := rfOf_movePart t m m2 src dst
            rw [ht2, hco, hcu, hrf]
            exact hconds m2 (List.mem_cons_of_mem m hm2)
          have hrest := ih t2 (acc ++ [(⟨overRg, underRg, m, t⟩ : MoveRec)])
            hnames2 (List.nodup_cons.mp hnd).2 hconds2 hinv2 hacc2
          cases hres : rgpcInner overRg underRg opt rest t2
              (acc ++ [(⟨overRg, underRg, m, t⟩ : MoveRec)]) with
          | error e =>
            rw [hres] at hrest
            exact hrest
          | ok pr =>
            rw [hres] at hrest
            obtain ⟨ha, hb, hc, hd⟩ := hrest
            exact ⟨ha, hb, hc, fun g hg => (hd g hg).trans (hpres g hg)⟩
    · rw [rgpcInner_cons_stop overRg underRg opt m rest t acc hdiff]
      exact ⟨hacc, Nat.le_of_lt hinv, hnames, fun g _ => rfl⟩

/-- Soundness of the middle loop over under-loaded groups. -/
theorem rgpcMiddle_sound (overRg : RG) (opt nrgs : Nat)
    (hOvNd : overRg.brokerIds.Nodup) :
    ∀ (unders : List RG) (t : Topology) (acc : List MoveRec),
    (∀ u ∈ unders, ∀ b ∈ overRg.brokerIds, b ∉ u.brokerIds) →
    (t.partitions.map Partition.name).Nodup →
    opt < rgSize t overRg →
    (∀ r ∈ acc, moveRecOk opt nrgs r) →
    (match rgpcMiddle overRg opt nrgs unders t acc with
     | .error e => ∀ r ∈ e.2.2, moveRecOk opt nrgs r
     | .ok pr => (∀ r ∈ pr.2, moveRecOk opt nrgs r) ∧
         opt ≤ rgSize pr.1 overRg ∧
         (pr.1.partitions.map Partition.name).Nodup ∧
         (∀ g : RG, (∀ b ∈ g.brokerIds, b ∉ overRg.brokerIds ∧
             (∀ u ∈ unders, b ∉ u.brokerIds)) →
           rgSize pr.1 g = rgSize t g)) := by
  intro unders
  induction unders with
  | nil =>
    intro t acc _ hnames hinv hacc
    simp only [rgpcMiddle]
    exact ⟨hacc, Nat.le_of_lt hinv, hnames, fun g _ => by trivial⟩
  | cons u rest ih =>
    intro t acc hdisj hnames hinv hacc
    have hdisju : ∀ b ∈ overRg.brokerIds, b ∉ u.brokerIds :=
      hdisj u (List.mem_cons_self u rest)
    have hin := rgpcInner_sound overRg u opt nrgs hdisju hOvNd
      (eligibleParts t overRg u nrgs) t acc hnames
      (eligibleParts_nodup t overRg u nrgs)
      (fun m hm => eligibleParts_spec t overRg u nrgs m hm)
      hinv hacc
    cases hres : rgpcInner overRg u opt (eligibleParts t overRg u nrgs) t acc with
    | error e =>
      rw [rgpcMiddle_cons_err overRg opt nrgs u rest t acc e hres]
      rw [hres] at hin
      exact hin
    | ok pr =>
      obtain ⟨t2, acc2⟩ := pr
      rw [rgpcMiddle_cons_ok overRg opt nrgs u rest t acc t2 acc2 hres]
      rw [hres] at hin
      obtain ⟨hP2, hle2, hnames2, hpres2⟩ := hin
      by_cases hstop : (rgSize t2 overRg == opt) = true
      · rw [if_pos hstop]
        refine ⟨hP2, hle2, hnames2, ?_⟩
        intro g hg
        exact hpres2 g (fun b hb =>
          ⟨(hg b hb).1, (hg b hb).2 u (List.mem_cons_self u rest)⟩)
      · rw [if_neg hstop]
        have hneq : rgSize t2 overRg ≠ opt := by
          intro he
          apply hstop
          simp [he]
        have hinv2 : opt < rgSize t2 overRg := lt_of_le_of_ne hle2 (Ne.symm hneq)
        have hrest := ih t2 acc2
          (fun u2 hu2 => hdisj u2 (List.mem_cons_of_mem u hu2)) hnames2 hinv2 hP2
        cases hres2 : rgpcMiddle overRg opt nrgs rest t2 acc2 with
        | error e =>
          rw [hres2] at hrest
          exact hrest
        | ok pr2 =>
          obtain ⟨t3, acc3⟩ := pr2
          rw [hres2] at hrest
          obtain ⟨ha, hb, hc, hd⟩ := hrest
          refine ⟨ha, hb, hc, ?_⟩
          intro g hg
          have h1 := hd g (fun b hb => ⟨(hg b hb).1,
            fun u2 hu2 => (hg b hb).2 u2 (List.mem_cons_of_mem u hu2)⟩)
          have h2 := hpres2 g (fun b hb =>
            ⟨(hg b hb).1, (hg b hb).2 u (List.mem_cons_self u rest)⟩)
          exact h1.trans h2

/-- Soundness of the outer loop over over-loaded groups. -/
theorem rgpcOuter_sound (opt nrgs : Nat) (unders : List RG) :
    ∀ (ovs : List RG) (t : Topology) (acc : List MoveRec),
    ovs.Nodup →
    (∀ o ∈ ovs, o.brokerIds.Nodup) →
    (∀ o ∈ ovs, ∀ u ∈ unders, ∀ b ∈ o.brokerIds, b ∉ u.brokerIds) →
    (∀ o1 ∈ ovs, ∀ o2 ∈ ovs, o1 ≠ o2 → ∀ b ∈ o1.brokerIds, b ∉ o2.brokerIds) →
    (t.partitions.map Partition.name).Nodup →
    (∀ o ∈ ovs, opt < rgSize t o) →
    (∀ r ∈ acc, moveRecOk opt nrgs r) →
    (match rgpcOuter opt nrgs unders ovs t acc with
     | .error e => ∀ r ∈ e.2.2, moveRecOk opt nrgs r
     | .ok pr => ∀ r ∈ pr.2, moveRecOk opt nrgs r) := by
  intro ovs
  induction ovs with
  | nil =>
    intro t acc _ _ _ _ _ _ hacc
    simp only [rgpcOuter]
    exact hacc
  | cons o rest ih =>
    intro t acc hnd hond hou hoo hnames hsz hacc
    have hmid := rgpcMiddle_sound o opt nrgs (hond o (List.mem_cons_self o rest))
      unders t acc (hou o (List.mem_cons_self o rest)) hnames
      (hsz o (List.mem_cons_self o rest)) hacc
    cases hres : rgpcMiddle o opt nrgs unders t acc with
    | error e =>
      rw [rgpcOuter_cons_err opt nrgs unders o rest t acc e hres]
      rw [hres] at hmid
      exact hmid
    | ok pr =>
      obtain ⟨t2, acc2⟩ := pr
      rw [rgpcOuter_cons_ok opt nrgs unders o rest t acc t2 acc2 hres]
      rw [hres] at hmid
      obtain ⟨hP2, _, hnames2, hpres2⟩ := hmid
      have hsz2 : ∀ o2 ∈ rest, opt < rgSize t2 o2 := by
        intro o2 ho2
        have hne : o ≠ o2 := fun he => (List.nodup_cons.mp hnd).1 (he ▸ ho2)
        have heq := hpres2 o2 (fun b hb =>
          ⟨hoo o2 (List.mem_cons_of_mem o ho2) o (List.mem_cons_self o rest)
            (Ne.symm hne) b hb,
           fun u hu => hou o2 (List.mem_cons_of_mem o ho2) u hu b hb⟩)
        rw [heq]
        exact hsz o2 (List.mem_cons_of_mem o ho2)
      exact ih t2 acc2 (List.nodup_cons.mp hnd).2
        (fun o2 h => hond o2 (List.mem_cons_of_mem o h))
        (fun o2 h => hou o2 (List.mem_cons_of_mem o h))
        (fun o1 h1 o2 h2 hne =>
          hoo o1 (List.mem_cons_of_mem o h1) o2 (List.mem_cons_of_mem o h2) hne)
        hnames2 hsz2 hP2

/-- The over-loaded list of separate_groups has no duplicates when the input
items have none. -/
theorem separateGroups_over_nodup (items : List α) (load : α → Nat)
    (keyLe : α → α → Bool) (total : Nat) (hitems : items.Nodup) :
    (separateGroups items load keyLe total).1.Nodup := by
  simp only [separateGroups, computeOptimum]
  have hsorted : (stableSort
      (fun a b => load b < load a || (load b == load a && keyLe a b)) items).Nodup :=
    (List.Perm.nodup_iff (stableSort_perm _ items)).mpr hitems
  apply List.Nodup.append
  · exact List.Nodup.filter _ hsorted
  · exact List.Sublist.nodup (List.drop_sublist _ _) (List.Nodup.filter _ hsorted)
  · intro x hx1 hx2
    have h1 := of_decide_eq_true (List.mem_filter.mp hx1).2
    have h2 := (List.mem_filter.mp (List.mem_of_mem_drop hx2)).2
    have h3 : load x = total / items.length + 1 := by simpa using h2
    omega

/-- C5 (amended): in a well-formed topology, every move recorded by the
partition-count pass satisfies, at the topology right before the move: the
over-loaded group's replica count of the partition strictly exceeds the
per-partition quotient and the under-loaded group's count is at most it, the
over-loaded group holds more than one partition above the under-loaded group,
and the over-loaded group is still strictly above the optimal partition
count.  (The under-loaded group may already be at the optimum when revisited
during a later over-loaded group's pass.) -/
theorem C5_amended (t : Topology) (hwf : WF t) :
    ∀ rec ∈ rgpcTrace t,
      rfOf rec.pre rec.part / t.rgs.length <
          countReplica rec.pre rec.overRg rec.part ∧
        countReplica rec.pre rec.underRg rec.part ≤
          rfOf rec.pre rec.part / t.rgs.length ∧
        rgSize rec.pre rec.underRg + 1 < rgSize rec.pre rec.overRg ∧
        optPartitionCnt t < rgSize rec.pre rec.overRg := by
  intro rec hrec
  simp only [rgpcTrace, rgpcRun] at hrec
  by_cases hempty :
      ((separateGroups t.rgs (fun g => rgSize t g) rgKeyLe (totalElements t)).1.isEmpty ||
        (separateGroups t.rgs (fun g => rgSize t g) rgKeyLe
          (totalElements t)).2.isEmpty) = true
  · rw [if_pos hempty] at hrec
    simp at hrec
  · rw [if_neg hempty] at hrec
    have hover := fun x hx => separateGroups_over_spec t.rgs
      (fun g => rgSize t g) rgKeyLe (totalElements t) x hx
    have hunder := fun x hx => separateGroups_under_spec t.rgs
      (fun g => rgSize t g) rgKeyLe (totalElements t) x hx
    have hne : ∀ o ∈ (separateGroups t.rgs (fun g => rgSize t g) rgKeyLe
        (totalElements t)).1,
        ∀ u ∈ (separateGroups t.rgs (fun g => rgSize t g) rgKeyLe
          (totalElements t)).2, o ≠ u := by
      intro o ho u hu he
      have h1 := (hover o ho).2
      have h2 := (hunder u hu).2
      rw [he] at h1
      omega
    have hmain := rgpcOuter_sound (optPartitionCnt t) t.rgs.length
      (separateGroups t.rgs (fun g => rgSize t g) rgKeyLe (totalElements t)).2
      (separateGroups t.rgs (fun g => rgSize t g) rgKeyLe (totalElements t)).1
      t []
      (separateGroups_over_nodup t.rgs _ rgKeyLe (totalElements t) hwf.rgsNodup)
      (fun o ho => hwf.rgBrokersNodup o (hover o ho).1)
      (fun o ho u hu =>
        List.Pairwise.forall disj_symm hwf.rgDisjoint (hover o ho).1
          (hunder u hu).1 (hne o ho u hu))
      (fun o1 h1 o2 h2 hne2 =>
        List.Pairwise.forall disj_symm hwf.rgDisjoint (hover o1 h1).1
          (hover o2 h2).1 hne2)
      hwf.partNamesNodup
      (fun o ho => by
        have h1 := (hover o ho).2
        have h2 : optPartitionCnt t = totalElements t / t.rgs.length := rfl
        omega)
      (fun r hr => absurd hr (List.not_mem_nil r))
    cases hres : rgpcOuter (optPartitionCnt t) t.rgs.length
        (separateGroups t.rgs (fun g => rgSize t g) rgKeyLe (totalElements t)).2
        (separateGroups t.rgs (fun g => rgSize t g) rgKeyLe (totalElements t)).1
        t [] with
    | error e =>
      rw [hres] at hrec hmain
      exact hmain rec hrec
    | ok pr =>
      rw [hres] at hrec hmain
      exact hmain rec hrec

theorem C5_amended_witness :
    rfOf exT5 ("t", 0) / exT5.rgs.length <
        countReplica exT5 (RG.mk "a" [1, 2]) ("t", 0) ∧
      countReplica exT5 (RG.mk "c" [5]) ("t", 0) ≤
        rfOf exT5 ("t", 0) / exT5.rgs.length ∧
      rgSize exT5 (RG.mk "c" [5]) + 1 < rgSize exT5 (RG.mk "a" [1, 2]) ∧
      optPartitionCnt exT5 < rgSize exT5 (RG.mk "a" [1, 2]) :=
  C5_amended exT5
    ⟨by decide, by decide, by decide, by decide, by decide, by decide, by decide,
     by decide, by decide⟩
    ⟨RG.mk "a" [1, 2], RG.mk "c" [5], ("t", 0), exT5⟩ (by decide)

end KafkaSpec
